import Mathlib

/-!
Verification development for the YBS print-calendar scheduling core
(`ybs_print_calander/gui.py`).  The Python module keeps two day-keyed
dicts (`_calendar_notes`, `_calendar_assignments`), snapshot-based
undo/redo stacks, a JSON persistence layer and a drag/drop selection
model.  Python dicts are embedded as ordered association lists (insertion
order preserved, update-in-place on existing keys), matching CPython
semantics; dict equality in Python compares key/value maps irrespective
of order, which is mirrored here by lookup equality on every key.
-/

namespace YBS

/-- An order assignment: `(orderNumber, company)`. -/
abbrev Order := String × String

/-- A calendar day key `(year, month, day)`.  Keys built by the GUI are
triples of non-negative Python ints. -/
abbrev DateKey := Nat × Nat × Nat

/-- Lookup in a Python-dict-like association list (first matching key). -/
def dlookup {α : Type} (k : DateKey) : List (DateKey × α) → Option α
  | [] => none
  | (k₂, v) :: rest => if k₂ = k then some v else dlookup k rest

/-- `d[k] = v` on a Python dict: update in place if the key exists,
otherwise append at the end (insertion order). -/
def dinsert {α : Type} (k : DateKey) (v : α) : List (DateKey × α) → List (DateKey × α)
  | [] => [(k, v)]
  | (k₂, v₂) :: rest =>
    if k₂ = k then (k₂, v) :: rest else (k₂, v₂) :: dinsert k v rest

/-- `d.pop(k, None)` on a Python dict: drop the entry for `k` if present. -/
def derase {α : Type} (k : DateKey) : List (DateKey × α) → List (DateKey × α)
  | [] => []
  | (k₂, v₂) :: rest =>
    if k₂ = k then rest else (k₂, v₂) :: derase k rest

/-! ### Date-key serialization (`_serialize_date_key`, `_deserialize_date_key`)

`_serialize_date_key` formats a key as zero-padded `YYYY-MM-DD` via
f-strings; `_deserialize_date_key` splits on `"-"`, requires exactly three
parts and converts each with Python `int()`.  Formatting and parsing of
non-negative integers are spelled out over character lists so that the
round trip can be reasoned about.  `int()` is modelled for its core
grammar (optional surrounding whitespace, optional sign, decimal digits);
exotic inputs Python also accepts (underscore separators, non-ASCII
digits) cannot arise from keys the program itself writes. -/

def digitChar (d : Nat) : Char := Char.ofNat (48 + d)

def dashChar : Char := Char.ofNat 45

def plusChar : Char := Char.ofNat 43

/-- Decimal digits of a positive number, least significant first. -/
def natToRevDigits : Nat → List Char
  | 0 => []
  | n + 1 => digitChar ((n + 1) % 10) :: natToRevDigits ((n + 1) / 10)
decreasing_by exact Nat.div_lt_self (Nat.succ_pos n) (by norm_num)

/-- `str(n)` for a non-negative Python int. -/
def natToChars (n : Nat) : List Char :=
  if n = 0 then [digitChar 0] else (natToRevDigits n).reverse

/-- The zero padding of `f"{n:04d}"` / `f"{n:02d}"` for `n ≥ 0`. -/
def padZeros (width : Nat) (digits : List Char) : List Char :=
  List.replicate (width - digits.length) (digitChar 0) ++ digits

/-- `_serialize_date_key`: `f"{year:04d}-{month:02d}-{day:02d}"` (the
`int()` conversions always succeed on the `Nat` triples the GUI builds). -/
def serializeDateKey (k : DateKey) : String :=
  String.mk (padZeros 4 (natToChars k.1) ++ [dashChar] ++
    padZeros 2 (natToChars k.2.1) ++ [dashChar] ++ padZeros 2 (natToChars k.2.2))

/-- `key.split("-")` for the single-character separator `"-"`. -/
def splitOnDashChars : List Char → List (List Char)
  | [] => [[]]
  | c :: rest =>
    if c = dashChar then [] :: splitOnDashChars rest
    else
      match splitOnDashChars rest with
      | g :: gs => (c :: g) :: gs
      | [] => [[c]]

def isPySpace (c : Char) : Bool :=
  c = Char.ofNat 32 || c = Char.ofNat 9 || c = Char.ofNat 10 ||
  c = Char.ofNat 13 || c = Char.ofNat 11 || c = Char.ofNat 12

def isDigitChar (c : Char) : Bool := 48 ≤ c.toNat && c.toNat ≤ 57

def trimChars (l : List Char) : List Char :=
  ((l.dropWhile isPySpace).reverse.dropWhile isPySpace).reverse

/-- Python `str.strip()` (whitespace at both ends removed). -/
def pyStrip (s : String) : String := String.mk (trimChars s.toList)

def digitsToNat (l : List Char) : Nat :=
  l.foldl (fun acc c => acc * 10 + (c.toNat - 48)) 0

/-- Python `int(part)` on one dash-free part of a split key (a part can
never contain `"-"`, so the value is non-negative when it parses). -/
def partNat (l : List Char) : Option Nat :=
  let t := trimChars l
  let t2 := if t.head? = some plusChar then t.tail else t
  if !t2.isEmpty && t2.all isDigitChar then some (digitsToNat t2) else none

/-- `_deserialize_date_key`: split on `"-"`, require three parts, parse
each with `int()`; any failure yields `None`. -/
def deserializeDateKey (key : String) : Option DateKey :=
  match (splitOnDashChars key.toList).map partNat with
  | [some y, some m, some d] => some (y, m, d)
  | _ => none

/-! ### JSON values and Python stringification

`json.load` produces nested dicts/lists/strings/numbers/bools/`None`.
Numbers are modelled as integers (the state files the program writes only
contain strings and arrays, so floats are out of scope).  `str(x)` on such
values is Python `repr` except on strings, where it is the identity. -/

inductive Json : Type where
  | null : Json
  | bool (b : Bool) : Json
  | num (n : Int) : Json
  | str (s : String) : Json
  | arr (items : List Json) : Json
  | obj (fields : List (String × Json)) : Json

def backslashChar : Char := Char.ofNat 92

def squoteChar : Char := Char.ofNat 39

def dquoteChar : Char := Char.ofNat 34

/-- One character of Python string `repr` (printable-ASCII fragment). -/
def pyEscapeChar (quote c : Char) : String :=
  if c = backslashChar then String.mk [backslashChar, backslashChar]
  else if c = quote then String.mk [backslashChar, c]
  else if c = Char.ofNat 10 then String.mk [backslashChar, Char.ofNat 110]
  else if c = Char.ofNat 13 then String.mk [backslashChar, Char.ofNat 114]
  else if c = Char.ofNat 9 then String.mk [backslashChar, Char.ofNat 116]
  else String.mk [c]

/-- Python `repr` of a string: single quotes unless the string contains a
single quote but no double quote. -/
def pyReprStr (s : String) : String :=
  let quote := if s.contains squoteChar && !(s.contains dquoteChar) then dquoteChar else squoteChar
  String.mk [quote] ++ String.join (s.toList.map (pyEscapeChar quote)) ++ String.mk [quote]

/-- `str(n)` for a Python int. -/
def pyIntRepr (n : Int) : String :=
  if n < 0 then "-" ++ String.mk (natToChars n.natAbs) else String.mk (natToChars n.natAbs)

mutual

/-- Python `repr` of a parsed-JSON value. -/
def pyRepr : Json → String
  | .null => "None"
  | .bool true => "True"
  | .bool false => "False"
  | .num n => pyIntRepr n
  | .str s => pyReprStr s
  | .arr items => "[" ++ pyReprList items ++ "]"
  | .obj fields => "\x7b" ++ pyReprFields fields ++ "\x7d"

def pyReprList : List Json → String
  | [] => ""
  | [x] => pyRepr x
  | x :: y :: rest => pyRepr x ++ ", " ++ pyReprList (y :: rest)

def pyReprFields : List (String × Json) → String
  | [] => ""
  | [(k, v)] => pyReprStr k ++ ": " ++ pyRepr v
  | (k, v) :: f :: rest => pyReprStr k ++ ": " ++ pyRepr v ++ ", " ++ pyReprFields (f :: rest)

end

/-- Python `str(x)` on a parsed-JSON value. -/
def pyStr : Json → String
  | .str s => s
  | v => pyRepr v

/-! ### Calendar state and the persistence gateway (`_load_state`, `_save_state`) -/

/-- The Store: `_calendar_notes` and `_calendar_assignments`. -/
structure CalendarState where
  notes : List (DateKey × String)
  assignments : List (DateKey × List Order)
deriving Repr, DecidableEq

/-- `dict.get(name, default)` over parsed-JSON object fields; a later
duplicate field wins, as in the dict `json.load` builds. -/
def jsonGet (name : String) (fields : List (String × Json)) : Option Json :=
  fields.foldl (fun acc f => if f.1 = name then some f.2 else acc) none

/-- The notes loop of `_load_state`: keep entries whose key parses as a
date and whose value is a string; anything else is skipped. -/
def loadNotesEntries : List (String × Json) → List (DateKey × String) → List (DateKey × String)
  | [], acc => acc
  | (keyStr, value) :: rest, acc =>
    match deserializeDateKey keyStr with
    | none => loadNotesEntries rest acc
    | some dateKey =>
      match value with
      | .str v => loadNotesEntries rest (dinsert dateKey v acc)
      | _ => loadNotesEntries rest acc

/-- The per-entry normalization inside the assignments loop of
`_load_state`: a list/tuple keeps its first two elements stringified
(missing ones default to `""`), a bare string becomes `(s, "")`, and
any other value is dropped. -/
def normalizeLoadedEntry : Json → Option Order
  | .arr items =>
    let first := match items.get? 0 with | some e => pyStr e | none => ""
    let second := match items.get? 1 with | some e => pyStr e | none => ""
    some (first, second)
  | .str s => some (s, "")
  | _ => none

/-- The assignments loop of `_load_state`: parseable key, list value,
entries normalized via `normalizeLoadedEntry`; an empty normalized list
is not stored. -/
def loadAssignmentsEntries :
    List (String × Json) → List (DateKey × List Order) → List (DateKey × List Order)
  | [], acc => acc
  | (keyStr, value) :: rest, acc =>
    match deserializeDateKey keyStr with
    | none => loadAssignmentsEntries rest acc
    | some dateKey =>
      match value with
      | .arr entries =>
        let normalized := entries.filterMap normalizeLoadedEntry
        if normalized.isEmpty then loadAssignmentsEntries rest acc
        else loadAssignmentsEntries rest (dinsert dateKey normalized acc)
      | _ => loadAssignmentsEntries rest acc

/-- `_load_state`.  `none` models a missing file, an unreadable file or
malformed JSON (`FileNotFoundError`/`OSError`/`JSONDecodeError` all set
`data = None`); any non-dict document is likewise ignored.  No error is
surfaced: the function always produces a state. -/
def loadState (data : Option Json) : CalendarState :=
  match data with
  | some (.obj fields) =>
    let notes := match (jsonGet "notes" fields).getD (.obj []) with
      | .obj noteFields => loadNotesEntries noteFields []
      | _ => []
    let assignments := match (jsonGet "assignments" fields).getD (.obj []) with
      | .obj assignFields => loadAssignmentsEntries assignFields []
      | _ => []
    ⟨notes, assignments⟩
  | _ => ⟨[], []⟩

/-- `_save_state` (the JSON document it writes; the file write itself is
I/O): serialize every key, keep note strings, and turn each assignment
pair into a two-element array. -/
def saveState (s : CalendarState) : Json :=
  .obj [("notes", .obj (s.notes.map fun e => (serializeDateKey e.1, .str e.2))),
    ("assignments", .obj (s.assignments.map fun e =>
      (serializeDateKey e.1, .arr (e.2.map fun o => .arr [.str o.1, .str o.2]))))]

/-! ### History actions and the undo/redo machinery (§ history manager)

`HistoryAction` is the typed form of the dicts the GUI pushes:
`{"kind": "notes", ...}` and `{"kind": "assignments", "dates": {...}}`.
On these already-well-formed values `_normalize_history_action` re-checks
key and entry shapes (the identity here) and rejects an assignments
action whose `dates` map is empty. -/

structure AssignSnapshot where
  hadKey : Bool
  previous : Option (List Order)
deriving Repr, DecidableEq

inductive HistoryAction : Type where
  | notes (dateKey : DateKey) (hadKey : Bool) (previous : Option String)
  | assignments (dates : List (DateKey × AssignSnapshot))
deriving Repr, DecidableEq

/-- The full mutable state the claims touch: the two Store maps, the two
history stacks, and whether a debounced save is pending. -/
structure AppState where
  calendarNotes : List (DateKey × String)
  calendarAssignments : List (DateKey × List Order)
  undoStack : List HistoryAction
  redoStack : List HistoryAction
  saveScheduled : Bool
deriving Repr, DecidableEq

/-- `_capture_assignments_state` (the entry copy re-normalizes each pair,
the identity on typed `Order` values). -/
def captureAssignmentsState (assignments : List (DateKey × List Order))
    (dateKey : DateKey) : AssignSnapshot :=
  match dlookup dateKey assignments with
  | none => ⟨false, none⟩
  | some l => ⟨true, some l⟩

/-- `_capture_notes_state`: note values are always strings, so `previous`
is the stored value exactly when the key is present. -/
def captureNotesState (notes : List (DateKey × String)) (dateKey : DateKey) :
    Bool × Option String :=
  ((dlookup dateKey notes).isSome, dlookup dateKey notes)

/-- `_normalize_history_action` on typed actions. -/
def normalizeHistoryAction : HistoryAction → Option HistoryAction
  | .assignments [] => none
  | a => some a

/-- `self._undo_stack_limit = 100` (and `_redo_stack_limit` aliases it). -/
def UNDO_STACK_LIMIT : Nat := 100

/-- `del stack[:len(stack) - limit]` once the stack exceeds the limit. -/
def trimStack (limit : Nat) (stack : List HistoryAction) : List HistoryAction :=
  if 0 < limit ∧ limit < stack.length then stack.drop (stack.length - limit) else stack

/-- `_push_undo_action`. -/
def pushUndoAction (s : AppState) (action : HistoryAction) (clearRedo : Bool) : AppState :=
  match normalizeHistoryAction action with
  | none => s
  | some a =>
    { s with undoStack := trimStack UNDO_STACK_LIMIT (s.undoStack ++ [a]),
             redoStack := if clearRedo then [] else s.redoStack }

/-- `_push_redo_action`. -/
def pushRedoAction (s : AppState) (action : HistoryAction) : AppState :=
  match normalizeHistoryAction action with
  | none => s
  | some a => { s with redoStack := trimStack UNDO_STACK_LIMIT (s.redoStack ++ [a]) }

/-- Restoring one date key of an assignments action (`_undo_last_action` /
`_redo_last_action`): set the captured list back if non-empty, otherwise
drop the key. -/
def restoreAssignmentsKey (m : List (DateKey × List Order)) (dateKey : DateKey)
    (previous : Option (List Order)) : List (DateKey × List Order) :=
  let restored := previous.getD []
  if restored.isEmpty then derase dateKey m else dinsert dateKey restored m

/-- Restoring the key of a notes action: a string `previous` is written
back verbatim; `None` removes the key whether or not `hadKey` was set
(the `previous is None and had_key` branch computes `""` and pops). -/
def restoreNotesKey (m : List (DateKey × String)) (dateKey : DateKey)
    (hadKey : Bool) (previous : Option String) : List (DateKey × String) :=
  match previous with
  | some v => dinsert dateKey v m
  | none => derase dateKey m

/-- The per-date loop shared by undo and redo on assignments actions:
capture the current state of each key (building the opposite-stack
entry), then restore the action value for that key. -/
def captureRestoreAssignLoop :
    List (DateKey × AssignSnapshot) → List (DateKey × List Order) →
    List (DateKey × AssignSnapshot) × List (DateKey × List Order)
  | [], m => ([], m)
  | (dateKey, info) :: rest, m =>
    let snap := captureAssignmentsState m dateKey
    let m2 := restoreAssignmentsKey m dateKey info.previous
    let next := captureRestoreAssignLoop rest m2
    ((dateKey, snap) :: next.1, next.2)

/-- `_undo_last_action` (the Store/stack core; widget refreshes and
status text are UI).  An empty stack leaves everything untouched. -/
def undoLastAction (s : AppState) : AppState :=
  match s.undoStack.getLast? with
  | none => s
  | some action =>
    let s0 : AppState := { s with undoStack := s.undoStack.dropLast }
    match action with
    | .assignments dates =>
      let looped := captureRestoreAssignLoop dates s0.calendarAssignments
      let s1 := { s0 with calendarAssignments := looped.2 }
      let s2 := if looped.1.isEmpty then s1 else pushRedoAction s1 (.assignments looped.1)
      if dates.isEmpty then s2 else { s2 with saveScheduled := true }
    | .notes dateKey hadKey previous =>
      let snap := captureNotesState s0.calendarNotes dateKey
      let s1 := pushRedoAction s0 (.notes dateKey snap.1 snap.2)
      let s2 := { s1 with calendarNotes := restoreNotesKey s1.calendarNotes dateKey hadKey previous }
      { s2 with saveScheduled := true }

/-- `_redo_last_action`: the structural mirror of undo; the fresh undo
entry is pushed with `clear_redo=False`. -/
def redoLastAction (s : AppState) : AppState :=
  match s.redoStack.getLast? with
  | none => s
  | some action =>
    let s0 : AppState := { s with redoStack := s.redoStack.dropLast }
    match action with
    | .assignments dates =>
      let looped := captureRestoreAssignLoop dates s0.calendarAssignments
      let s1 := { s0 with calendarAssignments := looped.2 }
      let s2 := if looped.1.isEmpty then s1 else pushUndoAction s1 (.assignments looped.1) false
      if dates.isEmpty then s2 else { s2 with saveScheduled := true }
    | .notes dateKey hadKey previous =>
      let snap := captureNotesState s0.calendarNotes dateKey
      let s1 := pushUndoAction s0 (.notes dateKey snap.1 snap.2) false
      let s2 := { s1 with calendarNotes := restoreNotesKey s1.calendarNotes dateKey hadKey previous }
      { s2 with saveScheduled := true }

/-! ### Store mutations -/

/-- `_normalize_assignment` on a tuple of strings: first two entries,
missing ones default to `""`. -/
def normalizeAssignment (values : List String) : Order :=
  (values.getD 0 "", values.getD 1 "")

/-- `_save_day_notes` with the text read from the notes widget passed in.
(`str.strip()` is `pyStrip`; the exotic Unicode-whitespace cases do not
arise in values the program stores.)  Leaves the state
unchanged when the effective value is unchanged, otherwise pushes the
pre-mutation snapshot, writes or removes the key, and schedules a save. -/
def saveDayNotes (s : AppState) (dateKey : DateKey) (newText : String) : AppState :=
  let hasNewText := !(pyStrip newText).isEmpty
  let existing := dlookup dateKey s.calendarNotes
  if hasNewText ∧ existing = some newText then s
  else if ¬(hasNewText = true) ∧ existing = none then s
  else
    let snap := captureNotesState s.calendarNotes dateKey
    let s1 := pushUndoAction s (.notes dateKey snap.1 snap.2) true
    let notes2 :=
      if hasNewText then dinsert dateKey newText s1.calendarNotes
      else derase dateKey s1.calendarNotes
    { s1 with calendarNotes := notes2, saveScheduled := true }

def insertSortedNat (n : Nat) : List Nat → List Nat
  | [] => [n]
  | m :: rest => if n ≤ m then n :: m :: rest else m :: insertSortedNat n rest

def sortNatAsc : List Nat → List Nat
  | [] => []
  | n :: rest => insertSortedNat n (sortNatAsc rest)

/-- `sorted(index for index in selected_indices if 0 <= index < len(assignments))`
with `selected_indices` a set (deduplicated). -/
def validDeleteIndices (assignments : List Order) (selection : List Int) : List Nat :=
  sortNatAsc ((selection.filterMap fun i =>
    if 0 ≤ i ∧ i < (assignments.length : Int) then some i.toNat else none).dedup)

/-- `_on_day_order_delete` (Store core; the listbox selection is passed
in as the list of selected indices). -/
def deleteDayOrders (s : AppState) (dateKey : DateKey) (selection : List Int) : AppState :=
  let assignments := (dlookup dateKey s.calendarAssignments).getD []
  if assignments.isEmpty then s
  else if selection.isEmpty then s
  else
    let validIndices := validDeleteIndices assignments selection
    if validIndices.isEmpty then s
    else
      let snap := captureAssignmentsState s.calendarAssignments dateKey
      let s1 := pushUndoAction s (.assignments [(dateKey, snap)]) true
      let newAssignments := validIndices.reverse.foldl (fun acc idx => acc.eraseIdx idx) assignments
      let m2 :=
        if newAssignments.isEmpty then derase dateKey s1.calendarAssignments
        else dinsert dateKey newAssignments s1.calendarAssignments
      { s1 with calendarAssignments := m2, saveScheduled := true }

/-- `_assign_order_to_day`: appends unless the value is already present,
returning whether anything changed. -/
def assignOrderToDay (s : AppState) (dateKey : DateKey) (orderValues : List String)
    (pushUndo : Bool) : AppState × Bool :=
  let normalized := normalizeAssignment orderValues
  let snap := captureAssignmentsState s.calendarAssignments dateKey
  let assignments := (dlookup dateKey s.calendarAssignments).getD []
  if normalized ∈ assignments then (s, false)
  else
    let s1 := if pushUndo then pushUndoAction s (.assignments [(dateKey, snap)]) true else s
    let m2 := dinsert dateKey (assignments ++ [normalized]) s1.calendarAssignments
    ({ s1 with calendarAssignments := m2, saveScheduled := true }, true)

/-! ### Drop resolver (`_handle_calendar_drop`)

The queue message carries `(success, message, payload)`; only successful
drops with a well-formed payload reach the mutation core modelled here.
Selection transfer and widget refreshes are UI concerns outside the
Store; the Store mutation, the history push and the save scheduling are
modelled exactly, including the mutable-list aliasing between the target
list and a same-day source list. -/

structure DropPayload where
  dateKey : DateKey
  orders : List Order
  sourceKind : Option String
  sourceDateKey : Option DateKey
  sourceOrders : List Order
  sourceIndices : List Int
deriving Repr, DecidableEq

structure DropResult where
  state : AppState
  addedToTarget : Bool
  removedFromSource : Bool
deriving Repr, DecidableEq

/-- One step of the removal scan: use the captured index hint when it is
in range, unused and still holds the same value; otherwise fall back to
the first structurally-equal unused occurrence. -/
def findRemovalIndex (lst : List Order) (used : List Nat) (hint : Option Int)
    (order : Order) : Option Nat :=
  let viaHint : Option Nat :=
    match hint with
    | some h =>
      if 0 ≤ h ∧ h < (lst.length : Int) ∧ h.toNat ∉ used ∧ lst.getD h.toNat ("", "") = order
      then some h.toNat else none
    | none => none
  match viaHint with
  | some idx => some idx
  | none =>
    (List.range lst.length).find? fun idx =>
      decide (idx ∉ used) && decide (lst.getD idx ("", "") = order)

/-- The removal loop over the payload orders, threading `used_indices`. -/
def removalLoop (lst : List Order) : List (Order × Option Int) → List Nat → List Nat
  | [], _ => []
  | (order, hint) :: rest, used =>
    match findRemovalIndex lst used hint order with
    | some idx => idx :: removalLoop lst rest (idx :: used)
    | none => removalLoop lst rest used

def insertSortedDescNat (n : Nat) : List Nat → List Nat
  | [] => [n]
  | m :: rest => if m ≤ n then n :: m :: rest else m :: insertSortedDescNat n rest

def sortNatDesc : List Nat → List Nat
  | [] => []
  | n :: rest => insertSortedDescNat n (sortNatDesc rest)

/-- `for idx in sorted(removed_indices, reverse=True): ... pop(idx)`. -/
def popIndicesDesc (lst : List Order) (indices : List Nat) : List Order :=
  (sortNatDesc indices).foldl
    (fun acc idx => if idx < acc.length then acc.eraseIdx idx else acc) lst

/-- The append loop: skip orders already on the target (duplicate-safe),
append the rest; the flag records whether anything was appended. -/
def appendOrdersLoop : List Order → List Order → List Order × Bool
  | tgt, [] => (tgt, false)
  | tgt, order :: rest =>
    if order ∈ tgt then appendOrdersLoop tgt rest
    else ((appendOrdersLoop (tgt ++ [order]) rest).1, true)

/-- The target `setdefault` of `_handle_calendar_drop`: inserting a key
absent from the dict appends `key → []` at the end. -/
def dropSetdefault (m : List (DateKey × List Order)) (key : DateKey) :
    List (DateKey × List Order) :=
  match dlookup key m with
  | some _ => m
  | none => m ++ [(key, [])]

/-- The indices the removal scan of `_handle_calendar_drop` selects on
the source list, given the payload source orders and index hints. -/
def dropRemovedIndices (srcList : List Order) (sourceOrders : List Order)
    (sourceIndices : List Int) : List Nat :=
  if srcList.isEmpty then []
  else removalLoop srcList
    (sourceOrders.enum.map fun e => (e.2, sourceIndices.get? e.1)) []

/-- The dict after the target `setdefault` of `_handle_calendar_drop`. -/
def dropM1 (m : List (DateKey × List Order)) (p : DropPayload) :
    List (DateKey × List Order) :=
  dropSetdefault m p.dateKey

/-- `target_assignments` right after the `setdefault`. -/
def dropTA0 (m : List (DateKey × List Order)) (p : DropPayload) : List Order :=
  (dlookup p.dateKey (dropM1 m p)).getD []

/-- `source_assignments_ref`: the target list itself for a same-day drop
(list aliasing), otherwise the source day's list if any. -/
def dropSourceList (m : List (DateKey × List Order)) (p : DropPayload) :
    Option (List Order) :=
  match p.sourceDateKey with
  | none => none
  | some src => if src = p.dateKey then some (dropTA0 m p) else dlookup src (dropM1 m p)

/-- `removed_indices` (empty when there is no truthy source list). -/
def dropRemoved (m : List (DateKey × List Order)) (p : DropPayload) : List Nat :=
  match dropSourceList m p with
  | some srcList =>
    dropRemovedIndices srcList
      (if p.sourceOrders.isEmpty then p.orders else p.sourceOrders) p.sourceIndices
  | none => []

/-- The source list after the descending pops. -/
def dropNewSourceList (m : List (DateKey × List Order)) (p : DropPayload) : List Order :=
  popIndicesDesc ((dropSourceList m p).getD []) (dropRemoved m p)

/-- The dict after the removal block (`if removed_indices:` with the
in-place pops and the cross-day set/pop cleanup). -/
def dropM2 (m : List (DateKey × List Order)) (p : DropPayload) :
    List (DateKey × List Order) :=
  if (dropRemoved m p).isEmpty then dropM1 m p
  else
    match p.sourceDateKey with
    | some src =>
      if src = p.dateKey then dinsert p.dateKey (dropNewSourceList m p) (dropM1 m p)
      else if (dropNewSourceList m p).isEmpty then derase src (dropM1 m p)
      else dinsert src (dropNewSourceList m p) (dropM1 m p)
    | none => dropM1 m p

/-- `target_assignments` as the append loop sees it: the popped list for
a same-day drop (aliasing), the original otherwise. -/
def dropTA1 (m : List (DateKey × List Order)) (p : DropPayload) : List Order :=
  if p.sourceDateKey = some p.dateKey then
    (if (dropRemoved m p).isEmpty then dropTA0 m p else dropNewSourceList m p)
  else dropTA0 m p

/-- The Store-map transformation of `_handle_calendar_drop`: target
`setdefault`, removal scan over the (same-day aliased) source list,
descending pops, source-key cleanup, duplicate-safe appends.  Returns
the new assignments map and the `added_to_target` /
`removed_from_source` flags. -/
def dropCore (m : List (DateKey × List Order)) (p : DropPayload) :
    List (DateKey × List Order) × Bool × Bool :=
  let appended := appendOrdersLoop (dropTA1 m p) p.orders
  (dinsert p.dateKey appended.1 (dropM2 m p), appended.2, !(dropRemoved m p).isEmpty)

/-- The combined history entry `_handle_calendar_drop` pushes: the target
snapshot when something was appended (or removed same-day), and the
source snapshot for a cross-day removal. -/
def dropUndoEntries (targetSnapshot : AssignSnapshot) (sourceSnapshot : Option AssignSnapshot)
    (normalizedKey : DateKey) (normalizedSource : Option DateKey)
    (addedToTarget removedFromSource : Bool) : List (DateKey × AssignSnapshot) :=
  (if addedToTarget || (removedFromSource && decide (normalizedSource = some normalizedKey))
   then [(normalizedKey, targetSnapshot)] else [])
  ++ (match normalizedSource with
      | some src =>
        if removedFromSource && !decide (src = normalizedKey)
        then [(src, sourceSnapshot.getD ⟨false, none⟩)] else []
      | none => [])

/-- `_handle_calendar_drop` for a successful drop message: the Store
mutation (`dropCore`), then the single combined history push and the
conditional save. -/
def handleCalendarDrop (s : AppState) (p : DropPayload) : DropResult :=
  if p.orders.isEmpty then ⟨s, false, false⟩
  else
    let targetSnapshot := captureAssignmentsState s.calendarAssignments p.dateKey
    let sourceSnapshot := p.sourceDateKey.map (captureAssignmentsState s.calendarAssignments)
    let core := dropCore s.calendarAssignments p
    let addedToTarget := core.2.1
    let removedFromSource := core.2.2
    let s1 := { s with calendarAssignments := core.1 }
    let undoEntries := dropUndoEntries targetSnapshot sourceSnapshot p.dateKey p.sourceDateKey
      addedToTarget removedFromSource
    let s2 := if undoEntries.isEmpty then s1 else pushUndoAction s1 (.assignments undoEntries) true
    let s3 := if addedToTarget || removedFromSource then { s2 with saveScheduled := true } else s2
    ⟨s3, addedToTarget, removedFromSource⟩

/-! ### The mutation protocol -/

/-- The notes/assignment mutations the claims quantify over. -/
inductive Mutation : Type where
  | saveNotes (dateKey : DateKey) (newText : String)
  | deleteOrders (dateKey : DateKey) (selection : List Int)
  | drop (payload : DropPayload)
  | assign (dateKey : DateKey) (orderValues : List String)
deriving Repr

def applyMutation (s : AppState) : Mutation → AppState
  | .saveNotes k t => saveDayNotes s k t
  | .deleteOrders k sel => deleteDayOrders s k sel
  | .drop p => (handleCalendarDrop s p).state
  | .assign k ov => (assignOrderToDay s k ov true).1

/-- Whether the mutation takes its mutating path and pushes a history
action (a guard-rejected call is a declared no-op and pushes nothing). -/
def mutationPushes (s : AppState) : Mutation → Bool
  | .saveNotes k t =>
    let hasNewText := !(pyStrip t).isEmpty
    let existing := dlookup k s.calendarNotes
    !(hasNewText && decide (existing = some t)) && !(!hasNewText && decide (existing = none))
  | .deleteOrders k sel =>
    let assignments := (dlookup k s.calendarAssignments).getD []
    !assignments.isEmpty && !sel.isEmpty && !(validDeleteIndices assignments sel).isEmpty
  | .drop p =>
    (handleCalendarDrop s p).addedToTarget || (handleCalendarDrop s p).removedFromSource
  | .assign k ov =>
    decide (normalizeAssignment ov ∉ (dlookup k s.calendarAssignments).getD [])

/-- The Store invariant: no day maps to an empty assignment list. -/
def assignInvariant (m : List (DateKey × List Order)) : Bool :=
  m.all fun e => !e.2.isEmpty

/-- No day maps to an empty note string. -/
def notesInvariant (m : List (DateKey × String)) : Bool :=
  m.all fun e => !e.2.isEmpty

/-- Python dict equality of the two Store maps: same value (or absence)
at every key, irrespective of insertion order. -/
def storeEq (a b : AppState) : Prop :=
  (∀ q, dlookup q a.calendarNotes = dlookup q b.calendarNotes) ∧
  (∀ q, dlookup q a.calendarAssignments = dlookup q b.calendarAssignments)

/-! ### Drag threshold (`DRAG_THRESHOLD`, `_on_order_drag`, `_on_day_order_drag`) -/

/-- `DRAG_THRESHOLD = 5`. -/
def DRAG_THRESHOLD : Nat := 5

/-- The promotion test both drag handlers run before `_begin_drag`:
`abs(x_root - start_x) >= DRAG_THRESHOLD or abs(y_root - start_y) >= DRAG_THRESHOLD`. -/
def dragExceedsThreshold (startX startY xRoot yRoot : Int) : Bool :=
  decide ((xRoot - startX).natAbs ≥ DRAG_THRESHOLD) ||
  decide ((yRoot - startY).natAbs ≥ DRAG_THRESHOLD)

/-! ### Selection model

Selections are modelled by value: the set of selected tree item ids and,
per day, the set of selected listbox indices.  Only presses on a valid
row that passed the bbox test reach the branches modelled here. -/

structure TreePressOutcome where
  selection : List String
  anchor : Option String
  pendingToggle : Bool
deriving Repr, DecidableEq

/-- `_normalize_tree_anchor`: keep the anchor only when it is a non-empty
id still present among the children. -/
def normalizeTreeAnchor (children : List String) (anchor : Option String) : Option String :=
  match anchor with
  | some a => if ¬a.isEmpty ∧ a ∈ children then some a else none
  | none => none

/-- The selection branches of `_on_order_press` for a press on item
`itemId` (shift-range, ctrl-toggle with deferral, plain click). -/
def onOrderPressSelect (children : List String) (selection : List String)
    (anchor : Option String) (itemId : String) (ctrl shift : Bool) : TreePressOutcome :=
  let anchor0 := normalizeTreeAnchor children anchor
  if shift ∧ ¬children.isEmpty then
    let a := anchor0.getD itemId
    if itemId ∈ children ∧ a ∈ children then
      let i := children.indexOf a
      let j := children.indexOf itemId
      let lo := min i j
      let hi := max i j
      ⟨(children.drop lo).take (hi - lo + 1), some a, false⟩
    else ⟨[itemId], some a, false⟩
  else if ctrl then
    if itemId ∈ selection then ⟨selection, anchor0, true⟩
    else ⟨selection ++ [itemId], if anchor0 = none then some itemId else anchor0, false⟩
  else
    if itemId ∈ selection ∧ ¬selection.isEmpty then ⟨selection, some itemId, false⟩
    else ⟨[itemId], some itemId, false⟩

structure TreeReleaseOutcome where
  selection : List String
  anchor : Option String
  pendingToggle : Bool
deriving Repr, DecidableEq

/-- The deferred ctrl-toggle of `_on_order_release`: applied only on the
no-drag path, only while still pending, and only when the release row is
the pressed row; the drag path never applies it. -/
def onOrderReleaseSelect (selection : List String) (anchor : Option String)
    (dragWasActive pendingToggle : Bool) (focusItem hoveredItem : String) :
    TreeReleaseOutcome :=
  if dragWasActive then ⟨selection, anchor, pendingToggle⟩
  else if pendingToggle ∧ hoveredItem = focusItem then
    let sel2 := selection.filter (· ≠ focusItem)
    ⟨sel2, if sel2.isEmpty then none else anchor, false⟩
  else ⟨selection, anchor, false⟩

/-- How one `_on_order_drag` motion event updates the pending-toggle and
drag-active flags: leaving the pressed row cancels the pending toggle,
and `_begin_drag` (run on threshold crossing) clears it as well. -/
def onOrderDragPendingUpdate (pendingToggle : Bool) (focusItem hoveredItem : String)
    (dragActive : Bool) (exceedsThreshold : Bool) : Bool × Bool :=
  let pending1 := if pendingToggle ∧ hoveredItem ≠ focusItem then false else pendingToggle
  if ¬(dragActive = true) ∧ exceedsThreshold = true then (false, true) else (pending1, dragActive)

/-- The selection branches of `_on_day_order_press` for a valid row
`index` (shift-range, ctrl-toggle applied immediately, plain click).
Returns the new listbox selection and the stored day anchor. -/
def onDayOrderPressSelect (assignmentsLen : Nat) (selection : List Nat)
    (storedAnchor : Option Nat) (index : Nat) (ctrl shift : Bool) :
    List Nat × Option Nat :=
  if shift then
    let anchor := match storedAnchor with
      | some a => if a < assignmentsLen then a else index
      | none => index
    let lo := min anchor index
    let hi := max anchor index
    ((List.range assignmentsLen).filter (fun i => lo ≤ i ∧ i ≤ hi), some anchor)
  else if ctrl then
    if index ∈ selection then (selection.filter (· ≠ index), storedAnchor)
    else (selection ++ [index], storedAnchor)
  else
    (if index ∈ selection then selection else [index], some index)

/-- All selection containers together: the unassigned-orders tree and
every day cell listbox. -/
structure SelectionState where
  treeSelection : List String
  daySelections : List (DateKey × List Nat)
deriving Repr, DecidableEq

/-- `_clear_other_day_selections`: clear every day listbox except the
active one. -/
def clearOtherDaySelections (activeKey : Option DateKey)
    (days : List (DateKey × List Nat)) : List (DateKey × List Nat) :=
  days.map fun e => if some e.1 = activeKey then e else (e.1, [])

/-- `_on_order_press` at the container level: clears every day selection
(`_clear_other_day_selections(None)`) before updating the tree. -/
def onOrderPressGlobal (g : SelectionState) (children : List String)
    (anchor : Option String) (itemId : String) (ctrl shift : Bool) :
    SelectionState × Option String × Bool :=
  let days2 := clearOtherDaySelections none g.daySelections
  let o := onOrderPressSelect children g.treeSelection anchor itemId ctrl shift
  (⟨o.selection, days2⟩, o.anchor, o.pendingToggle)

/-- `_on_day_order_press` at the container level: clears the other days
(`_clear_other_day_selections(date_key)`) and updates the pressed day;
the tree selection is not touched by this handler. -/
def onDayOrderPressGlobal (g : SelectionState) (dateKey : DateKey) (assignmentsLen : Nat)
    (storedAnchor : Option Nat) (index : Nat) (ctrl shift : Bool) :
    SelectionState × Option Nat :=
  let days2 := clearOtherDaySelections (some dateKey) g.daySelections
  let current := (dlookup dateKey days2).getD []
  let r := onDayOrderPressSelect assignmentsLen current storedAnchor index ctrl shift
  (⟨g.treeSelection, dinsert dateKey r.1 days2⟩, r.2)

/-! ### Outcome messages (`_format_assignment_move_message`) -/

def strOptTruthy : Option String → Bool
  | some l => !l.isEmpty
  | none => false

/-- `order_label[0].upper() + order_label[1:]` (labels are non-empty). -/
def capitalizeFirst (s : String) : String :=
  match s.toList with
  | [] => ""
  | c :: rest => String.mk (c.toUpper :: rest)

/-- The `order`/`order N`/`order N (C)` label of the single-order case. -/
def singleOrderMoveLabel (o : Order) : String :=
  let num := pyStrip o.1
  let comp := pyStrip o.2
  let l1 := if num.isEmpty then "order" else "order " ++ num
  if comp.isEmpty then l1 else l1 ++ " (" ++ comp ++ ")"

/-- `_format_assignment_move_message`. -/
def formatAssignmentMoveMessage (assignments : List Order) (targetLabel : String)
    (sourceLabel : Option String) (sameDay : Bool) : String :=
  if assignments.isEmpty then ""
  else if assignments.length = 1 then
    let orderLabel := singleOrderMoveLabel (assignments.getD 0 ("", ""))
    if strOptTruthy sourceLabel ∧ ¬(sameDay = true) then
      "Moved " ++ orderLabel ++ " from " ++ sourceLabel.getD "" ++ " to " ++ targetLabel ++ "."
    else if strOptTruthy sourceLabel then
      capitalizeFirst orderLabel ++ " remains scheduled for " ++ targetLabel ++ "."
    else "Assigned " ++ orderLabel ++ " to " ++ targetLabel ++ "."
  else
    let orderPhrase := toString assignments.length ++ " orders"
    if strOptTruthy sourceLabel ∧ ¬(sameDay = true) then
      "Moved " ++ orderPhrase ++ " from " ++ sourceLabel.getD "" ++ " to " ++ targetLabel ++ "."
    else if strOptTruthy sourceLabel then
      capitalizeFirst orderPhrase ++ " remain scheduled for " ++ targetLabel ++ "."
    else "Assigned " ++ orderPhrase ++ " to " ++ targetLabel ++ "."

/-- Total number of assignments summed over all days. -/
def totalAssignments (m : List (DateKey × List Order)) : Nat :=
  (m.map fun e => e.2.length).sum

/-! ## Proof development -/

@[simp] theorem dlookup_nil {α : Type} (k : DateKey) : dlookup (α := α) k [] = none := rfl

@[simp] theorem dlookup_cons {α : Type} (k k₂ : DateKey) (v : α) (rest : List (DateKey × α)) :
    dlookup k ((k₂, v) :: rest) = if k₂ = k then some v else dlookup k rest := rfl

theorem dlookup_dinsert_self {α : Type} (k : DateKey) (v : α) (m : List (DateKey × α)) :
    dlookup k (dinsert k v m) = some v := by
  induction m with
  | nil => simp [dinsert, dlookup]
  | cons hd tl ih =>
    obtain ⟨k₂, v₂⟩ := hd
    by_cases h : k₂ = k <;> simp [dinsert, dlookup, h, ih]

theorem dlookup_dinsert_ne {α : Type} {k q : DateKey} (hne : k ≠ q) (v : α)
    (m : List (DateKey × α)) : dlookup q (dinsert k v m) = dlookup q m := by
  induction m with
  | nil => simp [dinsert, dlookup, hne]
  | cons hd tl ih =>
    obtain ⟨k₂, v₂⟩ := hd
    by_cases h : k₂ = k
    · subst h
      simp [dinsert, dlookup, hne]
    · by_cases h2 : k₂ = q
      · subst h2
        simp [dinsert, dlookup, h]
      · simp [dinsert, dlookup, h, h2, ih]

theorem dlookup_eq_none_of_not_mem_keys {α : Type} {k : DateKey} {m : List (DateKey × α)}
    (h : k ∉ m.map Prod.fst) : dlookup k m = none := by
  induction m with
  | nil => rfl
  | cons hd tl ih =>
    obtain ⟨k₂, v₂⟩ := hd
    simp only [List.map_cons, List.mem_cons, not_or] at h
    simp [dlookup, Ne.symm h.1, ih h.2]

theorem dlookup_derase_self {α : Type} (k : DateKey) (m : List (DateKey × α))
    (hnd : (m.map Prod.fst).Nodup) : dlookup k (derase k m) = none := by
  induction m with
  | nil => simp [derase]
  | cons hd tl ih =>
    obtain ⟨k₂, v₂⟩ := hd
    simp only [List.map_cons, List.nodup_cons] at hnd
    by_cases h : k₂ = k
    · subst h
      simpa [derase] using dlookup_eq_none_of_not_mem_keys hnd.1
    · simp [derase, h, dlookup, ih hnd.2]

theorem dlookup_derase_ne {α : Type} {k q : DateKey} (hne : k ≠ q)
    (m : List (DateKey × α)) : dlookup q (derase k m) = dlookup q m := by
  induction m with
  | nil => simp [derase]
  | cons hd tl ih =>
    obtain ⟨k₂, v₂⟩ := hd
    by_cases h : k₂ = k
    · subst h
      simp [derase, dlookup, hne]
    · by_cases h2 : k₂ = q
      · subst h2
        simp [derase, dlookup, h, ih]
      · simp [derase, dlookup, h, h2, ih]

/-- Writing back the value a key already holds leaves the dict unchanged
(matches Python, where the mutation happened on the dict's own list object). -/
theorem dinsert_lookup_self {α : Type} {k : DateKey} {v : α} {m : List (DateKey × α)}
    (h : dlookup k m = some v) : dinsert k v m = m := by
  induction m with
  | nil => simp [dlookup] at h
  | cons hd tl ih =>
    obtain ⟨k₂, v₂⟩ := hd
    by_cases hk : k₂ = k
    · subst hk
      have h2 : v₂ = v := by simpa [dlookup] using h
      simp [dinsert, h2]
    · simp only [dlookup, if_neg hk] at h
      simp [dinsert, hk, ih h]

/-! ### C6 — drag-promotion threshold -/

/-- C6 counterexample: the spec says a gesture is promoted exactly when
the Euclidean displacement from the press point exceeds
`DRAG_THRESHOLD = 5`.  At displacement `(4, 4)` the squared Euclidean
distance is `32 > 25`, yet the handlers do not promote; and at `(5, 0)`
the Euclidean distance equals the threshold (does not exceed it), yet
the handlers do promote. -/
theorem c6_counterexample :
    ((((4 : Int) - 0) ^ 2 + ((4 : Int) - 0) ^ 2 > ((DRAG_THRESHOLD : Int)) ^ 2) ∧
      dragExceedsThreshold 0 0 4 4 = false) ∧
    ((((5 : Int) - 0) ^ 2 + ((0 : Int) - 0) ^ 2 ≤ ((DRAG_THRESHOLD : Int)) ^ 2) ∧
      dragExceedsThreshold 0 0 5 0 = true) := by
  decide

/-- C6 (amended): both drag handlers promote a pressed gesture exactly
when the Chebyshev displacement — the larger of `|dx|` and `|dy|` —
reaches `DRAG_THRESHOLD` (`abs(dx) >= 5 or abs(dy) >= 5`); Euclidean
distance plays no role. -/
theorem c6_chebyshev_threshold (startX startY xRoot yRoot : Int) :
    dragExceedsThreshold startX startY xRoot yRoot = true ↔
    DRAG_THRESHOLD ≤ max (xRoot - startX).natAbs (yRoot - startY).natAbs := by
  simp [dragExceedsThreshold, le_max_iff]

/-! ### C10 — load normalization of assignment entries -/

/-- C10: during load, an assignments entry that is a JSON string `s`
becomes `(s, "")`; a list keeps its first two elements stringified with
missing ones defaulting to `""`; and entries of any other type (`null`,
booleans, numbers, objects) are silently dropped — and a day whose key
parses stores exactly the list of surviving normalized entries (nothing
at all if none survive). -/
theorem c10_load_entry_normalization :
    (∀ s : String, normalizeLoadedEntry (.str s) = some (s, "")) ∧
    (∀ items : List Json, normalizeLoadedEntry (.arr items) =
      some ((items.get? 0).elim "" pyStr, (items.get? 1).elim "" pyStr)) ∧
    normalizeLoadedEntry .null = none ∧
    (∀ b, normalizeLoadedEntry (.bool b) = none) ∧
    (∀ n, normalizeLoadedEntry (.num n) = none) ∧
    (∀ fs, normalizeLoadedEntry (.obj fs) = none) ∧
    (∀ (ks : String) (dk : DateKey) (entries : List Json),
      deserializeDateKey ks = some dk →
      loadState (some (.obj [("assignments", .obj [(ks, .arr entries)])])) =
        ⟨[], if (entries.filterMap normalizeLoadedEntry).isEmpty then []
             else [(dk, entries.filterMap normalizeLoadedEntry)]⟩) := by
  refine ⟨fun s => rfl, fun items => ?_, rfl, fun b => rfl, fun n => rfl, fun fs => rfl, ?_⟩
  · cases h0 : items[0]? <;> cases h1 : items[1]? <;>
      simp [normalizeLoadedEntry, List.get?_eq_getElem?, h0, h1]
  · intro ks dk entries h
    simp +decide [loadState, jsonGet, loadNotesEntries, loadAssignmentsEntries, h, dinsert]

/-- C10 witness: a concrete load exercising every entry shape. -/
theorem c10_witness :
    deserializeDateKey "2024-01-05" = some (2024, 1, 5) ∧
    loadState (some (.obj [("assignments", .obj [("2024-01-05",
        .arr [.str "100", .num 3, .arr [.num 7], .null, .bool true])])])) =
      ⟨[], [((2024, 1, 5), [("100", ""), ("7", "")])]⟩ := by
  refine ⟨by decide, ?_⟩
  have h := c10_load_entry_normalization.2.2.2.2.2.2 "2024-01-05" (2024, 1, 5)
    [.str "100", .num 3, .arr [.num 7], .null, .bool true] (by decide)
  simpa [normalizeLoadedEntry, pyStr, pyRepr, pyIntRepr, natToChars, natToRevDigits, digitChar] using h

/-! ### C9 — load error handling -/

/-- An unparseable notes key contributes nothing to the loaded map. -/
theorem loadNotesEntries_drop_bad {ks : String} (v : Json)
    (h : deserializeDateKey ks = none) :
    ∀ (pre post : List (String × Json)) (acc : List (DateKey × String)),
    loadNotesEntries (pre ++ (ks, v) :: post) acc = loadNotesEntries (pre ++ post) acc := by
  intro pre
  induction pre with
  | nil =>
    intro post acc
    simp [loadNotesEntries, h]
  | cons hd tl ih =>
    intro post acc
    obtain ⟨k2, v2⟩ := hd
    cases hk : deserializeDateKey k2 with
    | none =>
      simp only [List.cons_append, loadNotesEntries, hk]
      apply ih
    | some dk =>
      cases v2 <;> simp only [List.cons_append, loadNotesEntries, hk] <;> apply ih

/-- An unparseable assignments key contributes nothing to the loaded map. -/
theorem loadAssignmentsEntries_drop_bad {ks : String} (v : Json)
    (h : deserializeDateKey ks = none) :
    ∀ (pre post : List (String × Json)) (acc : List (DateKey × List Order)),
    loadAssignmentsEntries (pre ++ (ks, v) :: post) acc = loadAssignmentsEntries (pre ++ post) acc := by
  intro pre
  induction pre with
  | nil =>
    intro post acc
    simp [loadAssignmentsEntries, h]
  | cons hd tl ih =>
    intro post acc
    obtain ⟨k2, v2⟩ := hd
    cases hk : deserializeDateKey k2 with
    | none =>
      simp only [List.cons_append, loadAssignmentsEntries, hk]
      apply ih
    | some dk =>
      cases v2 <;> simp only [List.cons_append, loadAssignmentsEntries, hk]
      all_goals first
        | apply ih
        | (split <;> apply ih)

/-- C9: a missing file or malformed JSON loads as the empty state (no
error escapes `_load_state`, which always returns normally), and a
top-level notes or assignments key that fails date parsing is silently
dropped: deleting such an entry from the document does not change the
loaded state. -/
theorem c9_load_error_handling :
    loadState none = ⟨[], []⟩ ∧
    (∀ (pre post af : List (String × Json)) (ks : String) (v : Json),
      deserializeDateKey ks = none →
      loadState (some (.obj [("notes", .obj (pre ++ (ks, v) :: post)), ("assignments", .obj af)])) =
        loadState (some (.obj [("notes", .obj (pre ++ post)), ("assignments", .obj af)]))) ∧
    (∀ (nf pre post : List (String × Json)) (ks : String) (v : Json),
      deserializeDateKey ks = none →
      loadState (some (.obj [("notes", .obj nf), ("assignments", .obj (pre ++ (ks, v) :: post))])) =
        loadState (some (.obj [("notes", .obj nf), ("assignments", .obj (pre ++ post))]))) := by
  refine ⟨rfl, ?_, ?_⟩
  · intro pre post af ks v h
    simp +decide [loadState, jsonGet, loadNotesEntries_drop_bad v h]
  · intro nf pre post ks v h
    simp +decide [loadState, jsonGet, loadAssignmentsEntries_drop_bad v h]

/-- C9 witness: dropping the unparseable key `"garbage"` from a concrete
document leaves the loaded state unchanged. -/
theorem c9_witness :
    loadState none = ⟨[], []⟩ ∧
    loadState (some (.obj [("notes", .obj (("garbage", .str "x") :: [("2024-01-05", .str "hi")])),
        ("assignments", .obj [])])) =
      loadState (some (.obj [("notes", .obj [("2024-01-05", .str "hi")]),
        ("assignments", .obj [])])) :=
  ⟨c9_load_error_handling.1,
    c9_load_error_handling.2.1 [] [("2024-01-05", .str "hi")] [] "garbage" (.str "x") (by decide)⟩

/-! ### C4 — ctrl/cmd-click toggle deferral -/

/-- C4 counterexample: in a day cell's orders list, a ctrl-click on the
already-selected row 0 removes it from the selection immediately at
press time (`orders_list.selection_clear(index)` inside
`_on_day_order_press`) — nothing is deferred to pointer release, so the
claim fails for the day-list selection contexts. -/
theorem c4_counterexample :
    (onDayOrderPressSelect 1 [0] none 0 true false).1 = [] ∧
    (onDayOrderPressSelect 1 [0] none 0 true false).1 ≠ [0] := by
  decide

/-- C4 (amended): only the unassigned-orders tree defers the ctrl-click
toggle-off of an already-selected item: the press leaves the selection
unchanged and raises the pending flag; the toggle is applied at release
only on the no-drag path over the pressed row; promotion to a drag
clears the pending flag and the drag-path release never applies the
toggle.  A day list's ctrl-click instead toggles the clicked index off
immediately at press time. -/
theorem c4_deferred_toggle :
    (∀ (children selection : List String) (anchor : Option String) (itemId : String),
      itemId ∈ selection →
      onOrderPressSelect children selection anchor itemId true false =
        ⟨selection, normalizeTreeAnchor children anchor, true⟩) ∧
    (∀ (selection : List String) (anchor : Option String) (focusItem : String),
      (onOrderReleaseSelect selection anchor false true focusItem focusItem).selection =
        selection.filter (· ≠ focusItem)) ∧
    (∀ (pending : Bool) (focusItem hoveredItem : String),
      onOrderDragPendingUpdate pending focusItem hoveredItem false true = (false, true)) ∧
    (∀ (selection : List String) (anchor : Option String) (pending : Bool)
      (focusItem hoveredItem : String),
      (onOrderReleaseSelect selection anchor true pending focusItem hoveredItem).selection =
        selection) ∧
    (∀ (len : Nat) (selection : List Nat) (anchor : Option Nat) (index : Nat),
      index ∈ selection →
      (onDayOrderPressSelect len selection anchor index true false).1 =
        selection.filter (· ≠ index)) := by
  refine ⟨?_, ?_, ?_, ?_, ?_⟩
  · intro children selection anchor itemId h
    simp [onOrderPressSelect, h]
  · intro selection anchor focusItem
    simp [onOrderReleaseSelect]
  · intro pending focusItem hoveredItem
    simp [onOrderDragPendingUpdate]
  · intro selection anchor pending focusItem hoveredItem
    simp [onOrderReleaseSelect]
  · intro len selection anchor index h
    simp [onDayOrderPressSelect, h]

/-- C4 witness: the tree defers the toggle for a concrete selected item
and the gesture without a drag applies it at release. -/
theorem c4_witness :
    ("b" ∈ (["a", "b"] : List String)) ∧
    onOrderPressSelect ["a", "b", "c"] ["a", "b"] none "b" true false =
      ⟨["a", "b"], none, true⟩ ∧
    (onOrderReleaseSelect ["a", "b"] none false true "b" "b").selection = ["a"] ∧
    ((0 : Nat) ∈ [0, 1]) ∧
    (onDayOrderPressSelect 2 [0, 1] none 0 true false).1 = [1] := by
  refine ⟨by decide, ?_, ?_, by decide, ?_⟩
  · have h := c4_deferred_toggle.1 ["a", "b", "c"] ["a", "b"] none "b" (by decide)
    simpa [normalizeTreeAnchor] using h
  · have h := c4_deferred_toggle.2.1 ["a", "b"] none "b"
    simpa using h
  · have h := c4_deferred_toggle.2.2.2.2 2 [0, 1] none 0 (by decide)
    simpa using h

/-! ### C7 — cross-container selection exclusivity -/

/-- C7 counterexample: the unassigned tree holds a selection, then a
plain press selects row 0 in a day cell; `_on_day_order_press` clears
only the other day listboxes, so afterwards both the tree and that day
hold non-empty selections — two containers at once. -/
theorem c7_counterexample :
    (onDayOrderPressGlobal ⟨["i1"], [((2024, 3, 15), [])]⟩ (2024, 3, 15) 2 none 0
        false false).1.treeSelection = ["i1"] ∧
    (onDayOrderPressGlobal ⟨["i1"], [((2024, 3, 15), [])]⟩ (2024, 3, 15) 2 none 0
        false false).1.daySelections = [((2024, 3, 15), [0])] := by
  decide

/-- Entries of `dinsert` come from the inserted pair or the original. -/
theorem mem_dinsert {α : Type} {e : DateKey × α} {k : DateKey} {v : α}
    {m : List (DateKey × α)} (h : e ∈ dinsert k v m) : e = (k, v) ∨ e ∈ m := by
  induction m with
  | nil => simpa [dinsert] using h
  | cons hd tl ih =>
    obtain ⟨k2, v2⟩ := hd
    by_cases hk : k2 = k
    · subst hk
      rcases (by simpa [dinsert] using h : e = (k2, v) ∨ e ∈ tl) with h1 | h1
      · exact Or.inl (by simpa using h1)
      · exact Or.inr (List.mem_cons_of_mem _ h1)
    · rcases (by simpa [dinsert, hk] using h : e = (k2, v2) ∨ e ∈ dinsert k v tl) with h1 | h1
      · exact Or.inr (by simp [h1])
      · rcases ih h1 with h2 | h2
        · exact Or.inl h2
        · exact Or.inr (List.mem_cons_of_mem _ h2)

/-- C7 (amended): a press in the unassigned tree clears every day
selection, but a press in a day cell clears only the *other* day cells
and leaves the tree selection untouched — so the tree and one day can
hold non-empty selections simultaneously; exclusivity holds among the
day cells themselves. -/
theorem c7_selection_clearing :
    (∀ (g : SelectionState) (children : List String) (anchor : Option String)
      (itemId : String) (ctrl shift : Bool),
      ((onOrderPressGlobal g children anchor itemId ctrl shift).1.daySelections.all
        fun e => e.2.isEmpty) = true) ∧
    (∀ (g : SelectionState) (dateKey : DateKey) (len : Nat) (anchor : Option Nat)
      (index : Nat) (ctrl shift : Bool),
      (onDayOrderPressGlobal g dateKey len anchor index ctrl shift).1.treeSelection =
        g.treeSelection ∧
      ∀ e ∈ (onDayOrderPressGlobal g dateKey len anchor index ctrl shift).1.daySelections,
        e.1 ≠ dateKey → e.2 = []) := by
  constructor
  · intro g children anchor itemId ctrl shift
    simp [onOrderPressGlobal, clearOtherDaySelections, List.all_eq_true]
  · intro g dateKey len anchor index ctrl shift
    refine ⟨rfl, ?_⟩
    intro e he hne
    rcases mem_dinsert (by simpa [onDayOrderPressGlobal] using he) with h1 | h1
    · exact absurd (by simp [h1]) hne
    · simp only [clearOtherDaySelections, List.mem_map] at h1
      obtain ⟨e2, _, h2⟩ := h1
      by_cases hk : some e2.1 = some dateKey
      · rw [← h2] at hne
        simp [hk] at hne
        simp_all
      · simp [hk] at h2
        rw [← h2]

/-- C7 witness: applying the clearing law to a concrete two-day state. -/
theorem c7_witness :
    ((onOrderPressGlobal ⟨["x"], [((2024, 3, 15), [0])]⟩ ["a"] none "a" false
        false).1.daySelections.all fun e => e.2.isEmpty) = true ∧
    (onDayOrderPressGlobal ⟨["x"], [((2024, 3, 15), [0]), ((2024, 3, 16), [1])]⟩
        (2024, 3, 15) 2 none 0 false false).1.treeSelection = ["x"] ∧
    (((2024, 3, 16), ([] : List Nat)).2 = []) :=
  ⟨c7_selection_clearing.1 ⟨["x"], [((2024, 3, 15), [0])]⟩ ["a"] none "a" false false,
    (c7_selection_clearing.2 ⟨["x"], [((2024, 3, 15), [0]), ((2024, 3, 16), [1])]⟩
      (2024, 3, 15) 2 none 0 false false).1,
    (c7_selection_clearing.2 ⟨["x"], [((2024, 3, 15), [0]), ((2024, 3, 16), [1])]⟩
      (2024, 3, 15) 2 none 0 false false).2 ((2024, 3, 16), []) (by decide) (by decide)⟩

/-! ### Dict and invariant helper lemmas -/

theorem dlookup_mem {α : Type} {k : DateKey} {v : α} :
    ∀ {m : List (DateKey × α)}, dlookup k m = some v → (k, v) ∈ m := by
  intro m
  induction m with
  | nil => intro h; simp [dlookup] at h
  | cons hd tl ih =>
    obtain ⟨k2, v2⟩ := hd
    intro h
    by_cases hk : k2 = k
    · subst hk
      have : v2 = v := by simpa [dlookup] using h
      simp [this]
    · simp only [dlookup, if_neg hk] at h
      exact List.mem_cons_of_mem _ (ih h)

theorem mem_of_mem_derase {α : Type} {e : DateKey × α} {k : DateKey} :
    ∀ {m : List (DateKey × α)}, e ∈ derase k m → e ∈ m := by
  intro m
  induction m with
  | nil => intro h; simpa [derase] using h
  | cons hd tl ih =>
    obtain ⟨k2, v2⟩ := hd
    intro h
    by_cases hk : k2 = k
    · subst hk
      exact List.mem_cons_of_mem _ (by simpa [derase] using h)
    · rcases (by simpa [derase, hk] using h : e = (k2, v2) ∨ e ∈ derase k tl) with h1 | h1
      · simp [h1]
      · exact List.mem_cons_of_mem _ (ih h1)

theorem dlookup_append_single_ne {α : Type} {q k : DateKey} (hne : k ≠ q) (v : α)
    (m : List (DateKey × α)) : dlookup q (m ++ [(k, v)]) = dlookup q m := by
  induction m with
  | nil => simp [dlookup, hne]
  | cons hd tl ih =>
    obtain ⟨k2, v2⟩ := hd
    by_cases h2 : k2 = q <;> simp [dlookup, h2, ih]

theorem allEntries_dinsert {α : Type} {p : DateKey × α → Bool} {k : DateKey} {v : α} :
    ∀ {m : List (DateKey × α)}, m.all p = true → p (k, v) = true →
    (dinsert k v m).all p = true := by
  intro m
  induction m with
  | nil => intro _ hv; simpa [dinsert] using hv
  | cons hd tl ih =>
    obtain ⟨k2, v2⟩ := hd
    intro hm hv
    simp only [List.all_cons, Bool.and_eq_true] at hm
    by_cases hk : k2 = k
    · subst hk
      simp [dinsert, hv, hm.2]
    · simp [dinsert, hk, hm.1, ih hm.2 hv]

theorem allEntries_derase {α : Type} {p : DateKey × α → Bool} {k : DateKey}
    {m : List (DateKey × α)} (hm : m.all p = true) : (derase k m).all p = true := by
  rw [List.all_eq_true] at hm ⊢
  exact fun e he => hm e (mem_of_mem_derase he)

theorem assignInvariant_lookup {m : List (DateKey × List Order)}
    (hm : assignInvariant m = true) {k : DateKey} {l : List Order}
    (h : dlookup k m = some l) : l ≠ [] := by
  have := List.all_eq_true.mp hm _ (dlookup_mem h)
  simpa [List.isEmpty_iff] using this

theorem notesInvariant_lookup {m : List (DateKey × String)}
    (hm : notesInvariant m = true) {k : DateKey} {v : String}
    (h : dlookup k m = some v) : v ≠ "" := by
  have h2 := List.all_eq_true.mp hm _ (dlookup_mem h)
  intro he
  subst he
  simp [String.isEmpty] at h2

/-- Every entry of the post-`setdefault` dict is an original entry or the
transient `target → []` entry. -/
theorem mem_dropM1 {e : DateKey × List Order} {m : List (DateKey × List Order)}
    {p : DropPayload} (h : e ∈ dropM1 m p) : e ∈ m ∨ e = (p.dateKey, []) := by
  simp only [dropM1, dropSetdefault] at h
  rcases h2 : dlookup p.dateKey m with _ | v <;> rw [h2] at h
  · rcases List.mem_append.mp h with h3 | h3
    · exact Or.inl h3
    · exact Or.inr (by simpa using h3)
  · exact Or.inl h

theorem dlookup_dropM1_ne {q : DateKey} {m : List (DateKey × List Order)}
    {p : DropPayload} (hq : q ≠ p.dateKey) :
    dlookup q (dropM1 m p) = dlookup q m := by
  simp only [dropM1, dropSetdefault]
  rcases h2 : dlookup p.dateKey m with _ | v
  · exact dlookup_append_single_ne (fun he => hq he.symm) _ m
  · rfl

/-- The append loop never produces an empty list from a non-empty input
(orders or target). -/
theorem appendOrdersLoop_ne_nil :
    ∀ (os tgt : List Order), os ≠ [] ∨ tgt ≠ [] → (appendOrdersLoop tgt os).1 ≠ [] := by
  intro os
  induction os with
  | nil =>
    intro tgt h
    rcases h with h | h
    · exact absurd rfl h
    · simpa [appendOrdersLoop] using h
  | cons o rest ih =>
    intro tgt _
    by_cases hmem : o ∈ tgt
    · have htgt : tgt ≠ [] := by rintro rfl; simp at hmem
      simpa [appendOrdersLoop, hmem] using ih tgt (Or.inr htgt)
    · simpa [appendOrdersLoop, hmem] using ih (tgt ++ [o]) (Or.inr (by simp))

/-- No key of the dict `dropCore` produces maps to an empty list. -/
theorem dropCore_noEmpty (m : List (DateKey × List Order)) (p : DropPayload)
    (hm : assignInvariant m = true) (hord : p.orders ≠ []) :
    ∀ (q : DateKey) (l : List Order), dlookup q (dropCore m p).1 = some l → l ≠ [] := by
  intro q l h
  have hm1 : ∀ l2, dlookup q (dropM1 m p) = some l2 → q ≠ p.dateKey → l2 ≠ [] := by
    intro l2 h2 hq
    rw [dlookup_dropM1_ne hq] at h2
    exact assignInvariant_lookup hm h2
  simp only [dropCore] at h
  by_cases hq : q = p.dateKey
  · subst hq
    rw [dlookup_dinsert_self] at h
    obtain rfl := Option.some.inj h
    exact appendOrdersLoop_ne_nil _ _ (Or.inl hord)
  · rw [dlookup_dinsert_ne (fun he => hq he.symm)] at h
    simp only [dropM2] at h
    split at h
    · exact hm1 l h hq
    · split at h
      next src hsrc =>
        split at h
        · next hst =>
          subst hst
          rw [dlookup_dinsert_ne (fun he => hq he.symm)] at h
          exact hm1 l h hq
        · next hst =>
          split at h
          · have hmem := mem_of_mem_derase (dlookup_mem h)
            rcases mem_dropM1 hmem with h3 | h3
            · have := List.all_eq_true.mp hm _ h3
              simpa [List.isEmpty_iff] using this
            · exact absurd (congrArg Prod.fst h3) hq
          · next hne2 =>
            by_cases hqs : q = src
            · subst hqs
              rw [dlookup_dinsert_self] at h
              obtain rfl := Option.some.inj h
              simpa [List.isEmpty_iff] using hne2
            · rw [dlookup_dinsert_ne (fun he => hqs he.symm)] at h
              exact hm1 l h hq
      next => exact hm1 l h hq

/-! ### Map-effect lemmas for the mutation operations -/

theorem pushUndoAction_notes (s : AppState) (a : HistoryAction) (c : Bool) :
    (pushUndoAction s a c).calendarNotes = s.calendarNotes := by
  cases h : normalizeHistoryAction a <;> simp [pushUndoAction, h]

theorem pushUndoAction_assign (s : AppState) (a : HistoryAction) (c : Bool) :
    (pushUndoAction s a c).calendarAssignments = s.calendarAssignments := by
  cases h : normalizeHistoryAction a <;> simp [pushUndoAction, h]

theorem pushRedoAction_notes (s : AppState) (a : HistoryAction) :
    (pushRedoAction s a).calendarNotes = s.calendarNotes := by
  cases h : normalizeHistoryAction a <;> simp [pushRedoAction, h]

theorem pushRedoAction_assign (s : AppState) (a : HistoryAction) :
    (pushRedoAction s a).calendarAssignments = s.calendarAssignments := by
  cases h : normalizeHistoryAction a <;> simp [pushRedoAction, h]

theorem saveDayNotes_assign (s : AppState) (k : DateKey) (t : String) :
    (saveDayNotes s k t).calendarAssignments = s.calendarAssignments := by
  simp only [saveDayNotes]
  split
  · rfl
  split
  · rfl
  simp [pushUndoAction_assign]

theorem saveDayNotes_notesInvariant (s : AppState) (k : DateKey) (t : String)
    (h : notesInvariant s.calendarNotes = true) :
    notesInvariant (saveDayNotes s k t).calendarNotes = true := by
  simp only [saveDayNotes]
  split
  · exact h
  split
  · exact h
  rw [show (pushUndoAction s (.notes k (captureNotesState s.calendarNotes k).1
      (captureNotesState s.calendarNotes k).2) true).calendarNotes = s.calendarNotes
    from pushUndoAction_notes ..]
  split
  · next hcond =>
    refine allEntries_dinsert h ?_
    by_cases ht : t = ""
    · subst ht
      exact absurd hcond (by decide)
    · have h2 : ¬ t.isEmpty = true := fun he => ht ((String.isEmpty_iff t).mp he)
      simp [Bool.eq_false_iff.mpr h2]
  · exact allEntries_derase h

theorem deleteDayOrders_notes (s : AppState) (k : DateKey) (sel : List Int) :
    (deleteDayOrders s k sel).calendarNotes = s.calendarNotes := by
  simp only [deleteDayOrders]
  split
  · rfl
  split
  · rfl
  split
  · rfl
  simp [pushUndoAction_notes]

theorem deleteDayOrders_assignInvariant (s : AppState) (k : DateKey) (sel : List Int)
    (h : assignInvariant s.calendarAssignments = true) :
    assignInvariant (deleteDayOrders s k sel).calendarAssignments = true := by
  simp only [deleteDayOrders]
  split
  · exact h
  split
  · exact h
  split
  · exact h
  rw [show (pushUndoAction s (.assignments [(k, captureAssignmentsState s.calendarAssignments k)])
      true).calendarAssignments = s.calendarAssignments from pushUndoAction_assign ..]
  split
  · exact allEntries_derase h
  · next hne =>
    refine allEntries_dinsert h ?_
    simpa using hne

theorem assignOrderToDay_notes (s : AppState) (k : DateKey) (ov : List String) (pu : Bool) :
    ((assignOrderToDay s k ov pu).1).calendarNotes = s.calendarNotes := by
  simp only [assignOrderToDay]
  split
  · rfl
  split <;> simp [pushUndoAction_notes]

theorem assignOrderToDay_assignInvariant (s : AppState) (k : DateKey) (ov : List String)
    (pu : Bool) (h : assignInvariant s.calendarAssignments = true) :
    assignInvariant ((assignOrderToDay s k ov pu).1).calendarAssignments = true := by
  simp only [assignOrderToDay]
  split
  · exact h
  have hins : assignInvariant (dinsert k
      (((dlookup k s.calendarAssignments).getD []) ++ [normalizeAssignment ov])
      s.calendarAssignments) = true := allEntries_dinsert h (by simp)
  split <;> simpa [pushUndoAction_assign] using hins

theorem handleCalendarDrop_notes (s : AppState) (p : DropPayload) :
    (handleCalendarDrop s p).state.calendarNotes = s.calendarNotes := by
  simp only [handleCalendarDrop]
  split
  · rfl
  split <;> split <;> simp [pushUndoAction_notes]

theorem handleCalendarDrop_assign_eq (s : AppState) (p : DropPayload)
    (h : ¬p.orders.isEmpty = true) :
    (handleCalendarDrop s p).state.calendarAssignments = (dropCore s.calendarAssignments p).1 := by
  simp only [handleCalendarDrop, if_neg h]
  split <;> split <;> simp [pushUndoAction_assign]

/-! ### Load invariant lemmas -/

theorem loadAssignmentsEntries_invariant :
    ∀ (entries : List (String × Json)) (acc : List (DateKey × List Order)),
    assignInvariant acc = true → assignInvariant (loadAssignmentsEntries entries acc) = true := by
  intro entries
  induction entries with
  | nil => intro acc h; exact h
  | cons hd tl ih =>
    intro acc h
    obtain ⟨ks, v⟩ := hd
    cases hk : deserializeDateKey ks with
    | none => simpa [loadAssignmentsEntries, hk] using ih acc h
    | some dk =>
      cases v <;> simp only [loadAssignmentsEntries, hk]
      case arr entries2 =>
        split
        · exact ih acc h
        · next hne =>
          refine ih _ (allEntries_dinsert h ?_)
          simpa using hne
      all_goals exact ih acc h

theorem loadState_assignInvariant (data : Option Json) :
    assignInvariant (loadState data).assignments = true := by
  rcases data with _ | j
  · rfl
  rcases j with _ | b | n | sv | items | fields
  case obj =>
    simp only [loadState]
    split
    · exact loadAssignmentsEntries_invariant _ [] rfl
    · rfl
  all_goals rfl

/-! ### C5 — minimal-map invariants -/

/-- C5 counterexample: loading a state file whose notes object maps
`"2024-01-05"` to the empty string produces a state in which that key
*is* mapped to `""` — `_load_state` keeps any string note verbatim, so
the invariant does not hold immediately after startup loading. -/
theorem c5_counterexample :
    dlookup (2024, 1, 5) (loadState (some (.obj [("notes",
      .obj [("2024-01-05", .str "")])]))).notes = some "" := by
  decide

/-- C5 (amended): no key of the assignments map is ever mapped to an
empty list, including immediately after load, and every store mutation
(notes save, day-order delete, calendar drop, direct assign) keeps both
maps minimal — keys whose effective value becomes empty are removed.
The notes map, however, may map a key to an empty string immediately
after loading, because `_load_state` accepts any string note verbatim. -/
theorem c5_minimal_maps :
    (∀ (data : Option Json) (q : DateKey) (l : List Order),
      dlookup q (loadState data).assignments = some l → l ≠ []) ∧
    (∀ (s : AppState) (μ : Mutation),
      notesInvariant s.calendarNotes = true →
      assignInvariant s.calendarAssignments = true →
      (∀ q v, dlookup q (applyMutation s μ).calendarNotes = some v → v ≠ "") ∧
      (∀ q l, dlookup q (applyMutation s μ).calendarAssignments = some l → l ≠ [])) := by
  constructor
  · intro data q l h
    exact assignInvariant_lookup (loadState_assignInvariant data) h
  · intro s μ hn ha
    cases μ with
    | saveNotes k t =>
      constructor
      · intro q v h
        exact notesInvariant_lookup (saveDayNotes_notesInvariant s k t hn) h
      · intro q l h
        rw [show (applyMutation s (.saveNotes k t)).calendarAssignments = s.calendarAssignments
          from saveDayNotes_assign ..] at h
        exact assignInvariant_lookup ha h
    | deleteOrders k sel =>
      constructor
      · intro q v h
        rw [show (applyMutation s (.deleteOrders k sel)).calendarNotes = s.calendarNotes
          from deleteDayOrders_notes ..] at h
        exact notesInvariant_lookup hn h
      · intro q l h
        exact assignInvariant_lookup (deleteDayOrders_assignInvariant s k sel ha) h
    | drop p =>
      constructor
      · intro q v h
        rw [show (applyMutation s (.drop p)).calendarNotes = s.calendarNotes
          from handleCalendarDrop_notes ..] at h
        exact notesInvariant_lookup hn h
      · intro q l h
        by_cases hord : p.orders.isEmpty = true
        · have hs : (handleCalendarDrop s p).state = s := by
            simp [handleCalendarDrop, hord]
          rw [show (applyMutation s (.drop p)) = (handleCalendarDrop s p).state from rfl,
            hs] at h
          exact assignInvariant_lookup ha h
        · rw [show (applyMutation s (.drop p)).calendarAssignments =
              (dropCore s.calendarAssignments p).1
            from handleCalendarDrop_assign_eq s p hord] at h
          exact dropCore_noEmpty s.calendarAssignments p ha
            (by simpa [List.isEmpty_iff] using hord) q l h
    | assign k ov =>
      constructor
      · intro q v h
        rw [show (applyMutation s (.assign k ov)).calendarNotes = s.calendarNotes
          from assignOrderToDay_notes ..] at h
        exact notesInvariant_lookup hn h
      · intro q l h
        exact assignInvariant_lookup (assignOrderToDay_assignInvariant s k ov true ha) h

/-- C5 witness: a concrete invariant-respecting state stays minimal
through a concrete assignment mutation. -/
theorem c5_witness :
    (notesInvariant ([] : List (DateKey × String)) = true ∧
      assignInvariant [((2024, 3, 15), [(("100" : String), ("Acme" : String))])] = true) ∧
    (dlookup (2024, 3, 15)
        (applyMutation ⟨[], [((2024, 3, 15), [("100", "Acme")])], [], [], false⟩
          (.assign (2024, 3, 16) ["7", "Q"])).calendarAssignments =
      some [("100", "Acme")]) ∧
    ([(("100" : String), ("Acme" : String))] ≠ []) :=
  ⟨⟨by decide, by decide⟩, by decide,
    (c5_minimal_maps.2 ⟨[], [((2024, 3, 15), [("100", "Acme")])], [], [], false⟩
      (.assign (2024, 3, 16) ["7", "Q"]) (by decide) (by decide)).2
      (2024, 3, 15) [("100", "Acme")] (by decide)⟩

/-! ### Serialization round-trip lemmas -/

theorem digitChar_toNat {d : Nat} (h : d < 10) : (digitChar d).toNat = 48 + d := by
  have hv : 48 + d < 55296 ∨ 57343 < 48 + d ∧ 48 + d < 1114112 := Or.inl (by omega)
  simp [digitChar, Char.ofNat, dif_pos hv, Char.ofNatAux, Char.toNat, UInt32.toNat,
    BitVec.toNat_ofNatLt]

theorem isDigitChar_of_range {c : Char} (h1 : 48 ≤ c.toNat) (h2 : c.toNat ≤ 57) :
    isDigitChar c = true := by
  simp [isDigitChar, h1, h2]

theorem ne_of_toNat_ne {c c2 : Char} (h : c.toNat ≠ c2.toNat) : c ≠ c2 := by
  intro he
  exact h (congrArg Char.toNat he)

theorem isPySpace_of_range {c : Char} (h1 : 48 ≤ c.toNat) : isPySpace c = false := by
  have h32 : c ≠ Char.ofNat 32 := ne_of_toNat_ne (by intro h; rw [h] at h1; simp at h1)
  have h9 : c ≠ Char.ofNat 9 := ne_of_toNat_ne (by intro h; rw [h] at h1; simp at h1)
  have h10 : c ≠ Char.ofNat 10 := ne_of_toNat_ne (by intro h; rw [h] at h1; simp at h1)
  have h13 : c ≠ Char.ofNat 13 := ne_of_toNat_ne (by intro h; rw [h] at h1; simp at h1)
  have h11 : c ≠ Char.ofNat 11 := ne_of_toNat_ne (by intro h; rw [h] at h1; simp at h1)
  have h12 : c ≠ Char.ofNat 12 := ne_of_toNat_ne (by intro h; rw [h] at h1; simp at h1)
  simp [isPySpace, h32, h9, h10, h13, h11, h12]

/-- Every character of `natToRevDigits n` is a decimal digit character. -/
theorem natToRevDigits_digits (n : Nat) :
    ∀ c ∈ natToRevDigits n, ∃ d, d < 10 ∧ c = digitChar d := by
  induction n using Nat.strong_induction_on with
  | _ n ih =>
    match n with
    | 0 => simp [natToRevDigits]
    | m + 1 =>
      intro c hc
      rw [natToRevDigits] at hc
      rcases List.mem_cons.mp hc with h | h
      · exact ⟨(m + 1) % 10, Nat.mod_lt _ (by norm_num), h⟩
      · exact ih ((m + 1) / 10) (Nat.div_lt_self (Nat.succ_pos m) (by norm_num)) c h

theorem natToChars_digits (n : Nat) :
    ∀ c ∈ natToChars n, ∃ d, d < 10 ∧ c = digitChar d := by
  intro c hc
  by_cases h : n = 0
  · subst h
    simp [natToChars] at hc
    exact ⟨0, by norm_num, hc⟩
  · simp [natToChars, h] at hc
    exact natToRevDigits_digits n c (List.mem_reverse.mp (by simpa using hc))

theorem padZeros_digits (w n : Nat) :
    ∀ c ∈ padZeros w (natToChars n), ∃ d, d < 10 ∧ c = digitChar d := by
  intro c hc
  rcases List.mem_append.mp hc with h | h
  · exact ⟨0, by norm_num, List.eq_of_mem_replicate h⟩
  · exact natToChars_digits n c h

theorem digitsToNat_append_digit (l : List Char) (c : Char) :
    digitsToNat (l ++ [c]) = 10 * digitsToNat l + (c.toNat - 48) := by
  simp [digitsToNat, List.foldl_append, Nat.mul_comm]

/-- Reading back the digits of `n` yields `n`. -/
theorem digitsToNat_rev (n : Nat) : digitsToNat (natToRevDigits n).reverse = n := by
  induction n using Nat.strong_induction_on with
  | _ n ih =>
    match n with
    | 0 => simp [natToRevDigits, digitsToNat]
    | m + 1 =>
      rw [natToRevDigits, List.reverse_cons, digitsToNat_append_digit,
        ih ((m + 1) / 10) (Nat.div_lt_self (Nat.succ_pos m) (by norm_num)),
        digitChar_toNat (Nat.mod_lt _ (by norm_num))]
      omega

theorem digitsToNat_natToChars (n : Nat) : digitsToNat (natToChars n) = n := by
  by_cases h : n = 0
  · subst h
    simp [natToChars, digitsToNat, digitChar_toNat (by norm_num : (0 : Nat) < 10)]
  · simp [natToChars, h, digitsToNat_rev]

theorem digitsToNat_cons_zero (l : List Char) :
    digitsToNat (digitChar 0 :: l) = digitsToNat l := by
  simp [digitsToNat, List.foldl_cons, digitChar_toNat (by norm_num : (0 : Nat) < 10)]

theorem digitsToNat_replicate_zero (k : Nat) (l : List Char) :
    digitsToNat (List.replicate k (digitChar 0) ++ l) = digitsToNat l := by
  induction k with
  | zero => simp
  | succ k2 ih => simpa [List.replicate_succ, digitsToNat_cons_zero] using ih

theorem dropWhile_eq_self_of_all {p : Char → Bool} :
    ∀ {l : List Char}, (∀ c ∈ l, p c = false) → l.dropWhile p = l := by
  intro l h
  cases l with
  | nil => rfl
  | cons c rest => simp [List.dropWhile_cons, h c (by simp)]

theorem trimChars_of_digits {l : List Char}
    (h : ∀ c ∈ l, ∃ d, d < 10 ∧ c = digitChar d) : trimChars l = l := by
  have hns : ∀ c ∈ l, isPySpace c = false := by
    intro c hc
    obtain ⟨d, hd, rfl⟩ := h c hc
    exact isPySpace_of_range (by rw [digitChar_toNat hd]; omega)
  have h1 : l.dropWhile isPySpace = l := dropWhile_eq_self_of_all hns
  have h2 : l.reverse.dropWhile isPySpace = l.reverse :=
    dropWhile_eq_self_of_all (fun c hc => hns c (List.mem_reverse.mp hc))
  simp [trimChars, h1, h2]

/-- `int()` applied to a zero-padded digit string yields the value. -/
theorem partNat_padZeros (w n : Nat) : partNat (padZeros w (natToChars n)) = some n := by
  have hdig := padZeros_digits w n
  have htrim := trimChars_of_digits hdig
  have hne : padZeros w (natToChars n) ≠ [] := by
    have : natToChars n ≠ [] := by
      by_cases h : n = 0
      · simp [natToChars, h]
      · simp only [natToChars, if_neg h]
        intro he
        rcases Nat.exists_eq_succ_of_ne_zero h with ⟨m, rfl⟩
        rw [natToRevDigits] at he
        simp at he
    simp only [padZeros]
    intro he
    exact absurd (List.append_eq_nil.mp he).2 this
  have hhead : ¬(padZeros w (natToChars n)).head? = some plusChar := by
    intro hh
    have hmem : plusChar ∈ padZeros w (natToChars n) := by
      cases hl : padZeros w (natToChars n) with
      | nil => exact absurd hl hne
      | cons c rest =>
        rw [hl] at hh
        simp at hh
        simp [hl, hh]
    obtain ⟨d, hd, he⟩ := hdig _ hmem
    have := congrArg Char.toNat he
    rw [digitChar_toNat hd] at this
    have hp : plusChar.toNat = 43 := by decide
    omega
  have halld : (padZeros w (natToChars n)).all isDigitChar = true := by
    rw [List.all_eq_true]
    intro c hc
    obtain ⟨d, hd, rfl⟩ := hdig c hc
    exact isDigitChar_of_range (by rw [digitChar_toNat hd]; omega) (by rw [digitChar_toNat hd]; omega)
  simp only [partNat, htrim, if_neg hhead]
  rw [if_pos]
  · simp [padZeros, digitsToNat_replicate_zero, digitsToNat_natToChars]
  · simp [halld, List.isEmpty_iff, hne]

theorem padZeros_no_dash (w n : Nat) : ∀ c ∈ padZeros w (natToChars n), c ≠ dashChar := by
  intro c hc
  obtain ⟨d, hd, rfl⟩ := padZeros_digits w n c hc
  refine ne_of_toNat_ne ?_
  rw [digitChar_toNat hd]
  have : dashChar.toNat = 45 := by decide
  omega

theorem splitOnDashChars_no_dash :
    ∀ {l : List Char}, (∀ c ∈ l, c ≠ dashChar) → splitOnDashChars l = [l] := by
  intro l
  induction l with
  | nil => intro _; rfl
  | cons c rest ih =>
    intro h
    have hc : ¬c = dashChar := h c (by simp)
    simp only [splitOnDashChars, if_neg hc, ih (fun c2 hc2 => h c2 (by simp [hc2]))]

theorem splitOnDashChars_append :
    ∀ {l1 : List Char}, (∀ c ∈ l1, c ≠ dashChar) → ∀ (l2 : List Char),
    splitOnDashChars (l1 ++ dashChar :: l2) = l1 :: splitOnDashChars l2 := by
  intro l1
  induction l1 with
  | nil =>
    intro _ l2
    simp [splitOnDashChars]
  | cons c rest ih =>
    intro h l2
    have hc : ¬c = dashChar := h c (by simp)
    have hih := ih (fun c2 hc2 => h c2 (by simp [hc2])) l2
    rw [List.cons_append]
    simp only [splitOnDashChars, if_neg hc]
    rw [hih]

/-- `_deserialize_date_key` inverts `_serialize_date_key` on `Nat` keys. -/
theorem deserialize_serialize (k : DateKey) :
    deserializeDateKey (serializeDateKey k) = some k := by
  obtain ⟨y, mo, d⟩ := k
  have htl : (serializeDateKey (y, mo, d)).toList =
      padZeros 4 (natToChars y) ++ dashChar :: (padZeros 2 (natToChars mo) ++
        dashChar :: padZeros 2 (natToChars d)) := by
    simp [serializeDateKey]
  rw [deserializeDateKey, htl,
    splitOnDashChars_append (padZeros_no_dash 4 y) _,
    splitOnDashChars_append (padZeros_no_dash 2 mo) _,
    splitOnDashChars_no_dash (padZeros_no_dash 2 d)]
  simp [partNat_padZeros]

theorem dinsert_not_mem {α : Type} {k : DateKey} {m : List (DateKey × α)}
    (h : k ∉ m.map Prod.fst) (v : α) : dinsert k v m = m ++ [(k, v)] := by
  induction m with
  | nil => rfl
  | cons hd tl ih =>
    obtain ⟨k2, v2⟩ := hd
    simp only [List.map_cons, List.mem_cons, not_or] at h
    simp [dinsert, Ne.symm h.1, ih h.2]

/-- Reloading serialized notes entries appends them back verbatim. -/
theorem loadNotesEntries_roundtrip :
    ∀ (l acc : List (DateKey × String)), (l.map Prod.fst).Nodup →
    (∀ k ∈ l.map Prod.fst, k ∉ acc.map Prod.fst) →
    loadNotesEntries (l.map fun e => (serializeDateKey e.1, Json.str e.2)) acc = acc ++ l := by
  intro l
  induction l with
  | nil => intro acc _ _; simp [loadNotesEntries]
  | cons hd tl ih =>
    intro acc hnd hdis
    obtain ⟨k, v⟩ := hd
    simp only [List.map_cons, loadNotesEntries, deserialize_serialize]
    rw [dinsert_not_mem (hdis k (by simp)) v]
    have hcons : (∀ x, (k, x) ∉ tl) ∧ (tl.map Prod.fst).Nodup := by simpa using hnd
    have hnd2 : (tl.map Prod.fst).Nodup := hcons.2
    have hk : k ∉ tl.map Prod.fst := by
      simp only [List.mem_map]
      rintro ⟨⟨k2, v2⟩, he, hke⟩
      simp at hke
      subst hke
      exact hcons.1 v2 he
    have hdis2 : ∀ k2 ∈ tl.map Prod.fst, k2 ∉ (acc ++ [(k, v)]).map Prod.fst := by
      intro k2 hk2
      simp only [List.map_append, List.mem_append]
      rintro (h | h)
      · exact hdis k2 (by simp [hk2]) h
      · simp at h
        subst h
        exact hk hk2
    rw [ih (acc ++ [(k, v)]) hnd2 hdis2]
    simp

theorem filterMap_normalize_pairs (l : List Order) :
    (l.map fun o => Json.arr [.str o.1, .str o.2]).filterMap normalizeLoadedEntry = l := by
  induction l with
  | nil => rfl
  | cons o rest ih =>
    simp only [List.map_cons, List.filterMap_cons]
    have : normalizeLoadedEntry (.arr [.str o.1, .str o.2]) = some (o.1, o.2) := rfl
    simp [this, ih]

/-- Reloading serialized assignments entries appends them back verbatim
(no day stores an empty list, so nothing is filtered away). -/
theorem loadAssignmentsEntries_roundtrip :
    ∀ (l acc : List (DateKey × List Order)), (l.map Prod.fst).Nodup →
    (∀ k ∈ l.map Prod.fst, k ∉ acc.map Prod.fst) →
    (∀ e ∈ l, e.2 ≠ []) →
    loadAssignmentsEntries
      (l.map fun e => (serializeDateKey e.1, Json.arr (e.2.map fun o => .arr [.str o.1, .str o.2])))
      acc = acc ++ l := by
  intro l
  induction l with
  | nil => intro acc _ _ _; simp [loadAssignmentsEntries]
  | cons hd tl ih =>
    intro acc hnd hdis hinv
    obtain ⟨k, v⟩ := hd
    simp only [List.map_cons, loadAssignmentsEntries, deserialize_serialize,
      filterMap_normalize_pairs]
    rw [if_neg (by simpa [List.isEmpty_iff] using hinv (k, v) (by simp))]
    rw [dinsert_not_mem (hdis k (by simp)) v]
    have hcons : (∀ x, (k, x) ∉ tl) ∧ (tl.map Prod.fst).Nodup := by simpa using hnd
    have hnd2 : (tl.map Prod.fst).Nodup := hcons.2
    have hk : k ∉ tl.map Prod.fst := by
      simp only [List.mem_map]
      rintro ⟨⟨k2, v2⟩, he, hke⟩
      simp at hke
      subst hke
      exact hcons.1 v2 he
    have hdis2 : ∀ k2 ∈ tl.map Prod.fst, k2 ∉ (acc ++ [(k, v)]).map Prod.fst := by
      intro k2 hk2
      simp only [List.map_append, List.mem_append]
      rintro (h | h)
      · exact hdis k2 (by simp [hk2]) h
      · simp at h
        subst h
        exact hk hk2
    rw [ih (acc ++ [(k, v)]) hnd2 hdis2 (fun e he => hinv e (by simp [he]))]
    simp

/-! ### C8 — round-trip serialization -/

/-- C8: for any store state with well-formed maps (distinct day keys, no
empty assignment lists — the documented dict invariants), deserializing
the serialized document restores the state exactly.  All `Nat` date keys
survive serialization, so no key is lost to date parsing. -/
theorem c8_roundtrip (s : CalendarState)
    (hn : (s.notes.map Prod.fst).Nodup) (ha : (s.assignments.map Prod.fst).Nodup)
    (hinv : assignInvariant s.assignments = true) :
    loadState (some (saveState s)) = s := by
  obtain ⟨notes, assignments⟩ := s
  simp only [saveState, loadState]
  have hjn : jsonGet "notes"
      [("notes", Json.obj (notes.map fun e => (serializeDateKey e.1, .str e.2))),
       ("assignments", Json.obj (assignments.map fun e =>
         (serializeDateKey e.1, .arr (e.2.map fun o => .arr [.str o.1, .str o.2]))))] =
      some (Json.obj (notes.map fun e => (serializeDateKey e.1, .str e.2))) := by
    simp +decide [jsonGet]
  have hja : jsonGet "assignments"
      [("notes", Json.obj (notes.map fun e => (serializeDateKey e.1, .str e.2))),
       ("assignments", Json.obj (assignments.map fun e =>
         (serializeDateKey e.1, .arr (e.2.map fun o => .arr [.str o.1, .str o.2]))))] =
      some (Json.obj (assignments.map fun e =>
        (serializeDateKey e.1, .arr (e.2.map fun o => .arr [.str o.1, .str o.2])))) := by
    simp +decide [jsonGet]
  rw [hjn, hja]
  simp only [Option.getD_some]
  rw [loadNotesEntries_roundtrip notes [] (by simpa using hn) (by simp),
    loadAssignmentsEntries_roundtrip assignments [] (by simpa using ha) (by simp)
      (fun e he => by simpa [List.isEmpty_iff] using List.all_eq_true.mp hinv e he)]
  simp

/-- C8 witness: a concrete state spanning two months round-trips. -/
theorem c8_witness :
    (([((2024, 3, 15), "march note"), ((2024, 4, 2), "april note")].map
        (Prod.fst (α := DateKey) (β := String))).Nodup ∧
      ([((2024, 3, 15), [(("100" : String), ("Acme" : String))]),
        ((2024, 4, 2), [("7", "Q"), ("8", "R")])].map
        (Prod.fst (α := DateKey) (β := List Order))).Nodup ∧
      assignInvariant [((2024, 3, 15), [("100", "Acme")]),
        ((2024, 4, 2), [("7", "Q"), ("8", "R")])] = true) ∧
    loadState (some (saveState ⟨[((2024, 3, 15), "march note"), ((2024, 4, 2), "april note")],
        [((2024, 3, 15), [("100", "Acme")]), ((2024, 4, 2), [("7", "Q"), ("8", "R")])]⟩)) =
      ⟨[((2024, 3, 15), "march note"), ((2024, 4, 2), "april note")],
        [((2024, 3, 15), [("100", "Acme")]), ((2024, 4, 2), [("7", "Q"), ("8", "R")])]⟩ :=
  ⟨⟨by decide, by decide, by decide⟩,
    c8_roundtrip ⟨[((2024, 3, 15), "march note"), ((2024, 4, 2), "april note")],
        [((2024, 3, 15), [("100", "Acme")]), ((2024, 4, 2), [("7", "Q"), ("8", "R")])]⟩
      (by decide) (by decide) (by decide)⟩

/-! ### Drop-resolver lemmas -/

theorem appendOrdersLoop_not_added :
    ∀ (os tgt : List Order), (appendOrdersLoop tgt os).2 = false →
    (appendOrdersLoop tgt os).1 = tgt := by
  intro os
  induction os with
  | nil => intro tgt _; rfl
  | cons o rest ih =>
    intro tgt h
    by_cases hmem : o ∈ tgt
    · simp only [appendOrdersLoop, if_pos hmem] at h ⊢
      exact ih tgt h
    · simp [appendOrdersLoop, hmem] at h

theorem dlookup_append_single_self {α : Type} {k : DateKey} {m : List (DateKey × α)}
    (h : dlookup k m = none) (v : α) : dlookup k (m ++ [(k, v)]) = some v := by
  induction m with
  | nil => simp [dlookup]
  | cons hd tl ih =>
    obtain ⟨k2, v2⟩ := hd
    by_cases hk : k2 = k
    · simp [dlookup, hk] at h
    · simp only [dlookup, if_neg hk] at h ⊢
      exact ih h

theorem dropUndoEntries_false (t : AssignSnapshot) (ssnap : Option AssignSnapshot)
    (k : DateKey) (src : Option DateKey) :
    dropUndoEntries t ssnap k src false false = [] := by
  cases src <;> simp [dropUndoEntries]

theorem handleCalendarDrop_flags (s : AppState) (p : DropPayload)
    (h : ¬p.orders.isEmpty = true) :
    (handleCalendarDrop s p).addedToTarget = (dropCore s.calendarAssignments p).2.1 ∧
    (handleCalendarDrop s p).removedFromSource = (dropCore s.calendarAssignments p).2.2 := by
  simp only [handleCalendarDrop, if_neg h]
  exact ⟨trivial, trivial⟩

/-- A same-day drop whose flags are both false leaves the assignments
dict untouched. -/
theorem dropCore_noop (m : List (DateKey × List Order)) (p : DropPayload)
    (hsame : p.sourceDateKey = some p.dateKey) (hord : p.orders ≠ [])
    (hadd : (dropCore m p).2.1 = false) (hrem : (dropCore m p).2.2 = false) :
    (dropCore m p).1 = m := by
  have hremoved : dropRemoved m p = [] := by
    have : (!(dropRemoved m p).isEmpty) = false := hrem
    simpa [List.isEmpty_iff] using this
  have hm2 : dropM2 m p = dropM1 m p := by simp [dropM2, hremoved]
  have hta1 : dropTA1 m p = dropTA0 m p := by simp [dropTA1, hsame, hremoved]
  have happ : (appendOrdersLoop (dropTA0 m p) p.orders).1 = dropTA0 m p := by
    apply appendOrdersLoop_not_added
    have h2 : (appendOrdersLoop (dropTA1 m p) p.orders).2 = false := hadd
    rwa [hta1] at h2
  rcases hl : dlookup p.dateKey m with _ | v
  · exfalso
    have hta0 : dropTA0 m p = [] := by
      simp [dropTA0, dropM1, dropSetdefault, hl, dlookup_append_single_self hl]
    rcases horders : p.orders with _ | ⟨o, rest⟩
    · exact hord horders
    have : (appendOrdersLoop (dropTA1 m p) p.orders).2 = true := by
      rw [hta1, hta0, horders]
      simp [appendOrdersLoop]
    have hadd2 : (appendOrdersLoop (dropTA1 m p) p.orders).2 = false := hadd
    rw [hadd2] at this
    exact Bool.false_ne_true this
  · have hm1 : dropM1 m p = m := by simp [dropM1, dropSetdefault, hl]
    have hta0 : dropTA0 m p = v := by simp [dropTA0, hm1, hl]
    show dinsert p.dateKey (appendOrdersLoop (dropTA1 m p) p.orders).1 (dropM2 m p) = m
    rw [hm2, hm1, hta1, happ, hta0]
    exact dinsert_lookup_self hl

theorem handleCalendarDrop_state_eq (s : AppState) (p : DropPayload)
    (hord : ¬p.orders.isEmpty = true)
    (hadd : (dropCore s.calendarAssignments p).2.1 = false)
    (hrem : (dropCore s.calendarAssignments p).2.2 = false)
    (hcore : (dropCore s.calendarAssignments p).1 = s.calendarAssignments) :
    (handleCalendarDrop s p).state = s := by
  simp only [handleCalendarDrop, if_neg hord, hadd, hrem, hcore,
    dropUndoEntries_false]
  simp

/-! ### C3 — same-day no-op drop -/

/-- C3: a same-day drop in which nothing was added and nothing was
removed is a pure no-op: the whole `AppState` — both Store maps, both
history stacks and the pending-save flag — is unchanged (so no history
entry is pushed and no persistence write is scheduled), while the
release handler still enqueues the drop as successful with the
"remains scheduled" outcome message built by
`_format_assignment_move_message` with `same_day=True`. -/
theorem c3_sameday_noop (s : AppState) (p : DropPayload) (targetLabel sourceLabel : String)
    (hsame : p.sourceDateKey = some p.dateKey) (hord : p.orders ≠ [])
    (hlbl : sourceLabel ≠ "")
    (hadd : (handleCalendarDrop s p).addedToTarget = false)
    (hrem : (handleCalendarDrop s p).removedFromSource = false) :
    (handleCalendarDrop s p).state = s ∧
    formatAssignmentMoveMessage p.orders targetLabel (some sourceLabel) true =
      (if p.orders.length = 1 then
        capitalizeFirst (singleOrderMoveLabel (p.orders.getD 0 ("", ""))) ++
          " remains scheduled for " ++ targetLabel ++ "."
       else
        capitalizeFirst (toString p.orders.length ++ " orders") ++
          " remain scheduled for " ++ targetLabel ++ ".") := by
  have hne : ¬p.orders.isEmpty = true := by simpa [List.isEmpty_iff] using hord
  have hflags := handleCalendarDrop_flags s p hne
  have hadd2 : (dropCore s.calendarAssignments p).2.1 = false := by rw [← hflags.1]; exact hadd
  have hrem2 : (dropCore s.calendarAssignments p).2.2 = false := by rw [← hflags.2]; exact hrem
  constructor
  · exact handleCalendarDrop_state_eq s p hne hadd2 hrem2
      (dropCore_noop s.calendarAssignments p hsame hord hadd2 hrem2)
  · have htruthy : strOptTruthy (some sourceLabel) = true := by
      have h2 : ¬ sourceLabel.isEmpty = true :=
        fun he => hlbl ((String.isEmpty_iff sourceLabel).mp he)
      simp [strOptTruthy, Bool.eq_false_iff.mpr h2]
    by_cases hlen : p.orders.length = 1
    · simp [formatAssignmentMoveMessage, hne, hlen, htruthy]
    · simp [formatAssignmentMoveMessage, hne, hlen, htruthy]

/-- C3 witness: the one reachable shape of the antecedent — a payload
whose captured source orders no longer match anything (so the removal
scan finds nothing) and whose orders are all already on the day (so the
appends skip) — leaves a concrete state bit-identical. -/
theorem c3_witness :
    ((handleCalendarDrop ⟨[], [((2024, 3, 15), [("100", "Acme")])], [], [], false⟩
        ⟨(2024, 3, 15), [("100", "Acme")], some "calendar", some (2024, 3, 15),
          [("999", "Zed")], [0]⟩).addedToTarget = false ∧
      (handleCalendarDrop ⟨[], [((2024, 3, 15), [("100", "Acme")])], [], [], false⟩
        ⟨(2024, 3, 15), [("100", "Acme")], some "calendar", some (2024, 3, 15),
          [("999", "Zed")], [0]⟩).removedFromSource = false) ∧
    (handleCalendarDrop ⟨[], [((2024, 3, 15), [("100", "Acme")])], [], [], false⟩
        ⟨(2024, 3, 15), [("100", "Acme")], some "calendar", some (2024, 3, 15),
          [("999", "Zed")], [0]⟩).state =
      ⟨[], [((2024, 3, 15), [("100", "Acme")])], [], [], false⟩ ∧
    formatAssignmentMoveMessage [("100", "Acme")] "March 15, 2024" (some "March 15, 2024") true =
      (if ([(("100" : String), ("Acme" : String))]).length = 1 then
        capitalizeFirst (singleOrderMoveLabel ([(("100" : String), ("Acme" : String))].getD 0 ("", ""))) ++
          " remains scheduled for " ++ "March 15, 2024" ++ "."
       else
        capitalizeFirst (toString ([(("100" : String), ("Acme" : String))]).length ++ " orders") ++
          " remain scheduled for " ++ "March 15, 2024" ++ ".") :=
  ⟨⟨by decide, by decide⟩,
    c3_sameday_noop ⟨[], [((2024, 3, 15), [("100", "Acme")])], [], [], false⟩
      ⟨(2024, 3, 15), [("100", "Acme")], some "calendar", some (2024, 3, 15),
        [("999", "Zed")], [0]⟩ "March 15, 2024" "March 15, 2024"
      (by decide) (by decide) (by decide) (by decide) (by decide)⟩

/-! ### Counting and totals lemmas for the cross-day move -/

theorem dlookup_none_not_mem_keys {α : Type} {k : DateKey} :
    ∀ {m : List (DateKey × α)}, dlookup k m = none → k ∉ m.map Prod.fst := by
  intro m
  induction m with
  | nil => intro _; simp
  | cons hd tl ih =>
    obtain ⟨k2, v2⟩ := hd
    intro h
    by_cases hk : k2 = k
    · simp [dlookup, hk] at h
    · simp only [dlookup, if_neg hk] at h
      simp [Ne.symm hk, ih h]

theorem dlookup_dropM1_self (m : List (DateKey × List Order)) (p : DropPayload) :
    dlookup p.dateKey (dropM1 m p) = some ((dlookup p.dateKey m).getD []) := by
  simp only [dropM1, dropSetdefault]
  rcases h : dlookup p.dateKey m with _ | v
  · exact dlookup_append_single_self h []
  · exact h

theorem dropM1_keys_nodup {m : List (DateKey × List Order)} {p : DropPayload}
    (hnd : (m.map Prod.fst).Nodup) : ((dropM1 m p).map Prod.fst).Nodup := by
  simp only [dropM1, dropSetdefault]
  rcases h : dlookup p.dateKey m with _ | v
  · show ((m ++ [(p.dateKey, [])]).map Prod.fst).Nodup
    have hnm := dlookup_none_not_mem_keys h
    have hx : ∀ x : List Order, (p.dateKey, x) ∉ m := by
      intro x hx
      exact hnm (List.mem_map.mpr ⟨(p.dateKey, x), hx, rfl⟩)
    simpa [List.nodup_append] using And.intro hnd hx
  · exact hnd

theorem count_eraseIdx_at {X : Order} :
    ∀ (l : List Order) (i : Nat), l.get? i = some X →
    (l.eraseIdx i).count X + 1 = l.count X := by
  intro l
  induction l with
  | nil => intro i h; simp at h
  | cons x rest ih =>
    intro i h
    cases i with
    | zero =>
      have hx : x = X := by simpa using h
      simp [List.eraseIdx, hx, List.count_cons]
    | succ j =>
      have hj := ih j (by simpa using h)
      simp only [List.eraseIdx, List.count_cons]
      omega

theorem totalAssignments_append_empty (m : List (DateKey × List Order)) (k : DateKey) :
    totalAssignments (m ++ [(k, [])]) = totalAssignments m := by
  simp [totalAssignments]

theorem totalAssignments_dinsert {k : DateKey} {w : List Order} :
    ∀ {m : List (DateKey × List Order)}, dlookup k m = some w → ∀ (v : List Order),
    totalAssignments (dinsert k v m) + w.length = totalAssignments m + v.length := by
  intro m
  induction m with
  | nil => intro h; simp [dlookup] at h
  | cons hd tl ih =>
    obtain ⟨k2, v2⟩ := hd
    intro h v
    by_cases hk : k2 = k
    · subst hk
      have hv2 : v2 = w := by simpa [dlookup] using h
      subst hv2
      simp [dinsert, totalAssignments]
      omega
    · simp only [dlookup, if_neg hk] at h
      have := ih h v
      simp only [dinsert, if_neg hk, totalAssignments, List.map_cons, List.sum_cons] at this ⊢
      omega

theorem totalAssignments_derase {k : DateKey} {w : List Order} :
    ∀ {m : List (DateKey × List Order)}, dlookup k m = some w →
    totalAssignments (derase k m) + w.length = totalAssignments m := by
  intro m
  induction m with
  | nil => intro h; simp [dlookup] at h
  | cons hd tl ih =>
    obtain ⟨k2, v2⟩ := hd
    intro h
    by_cases hk : k2 = k
    · subst hk
      have hv2 : v2 = w := by simpa [dlookup] using h
      subst hv2
      simp [derase, totalAssignments]
      omega
    · simp only [dlookup, if_neg hk] at h
      have := ih h
      simp only [derase, if_neg hk, totalAssignments, List.map_cons, List.sum_cons] at this ⊢
      omega

/-! ### C2 — cross-day move conservation -/

/-- C2 counterexample: order X assigned to both March 15 and March 16;
dropping X from the 15th onto the 16th removes it from the 15th but the
duplicate-safe append skips the copy already on the 16th, so the total
assignment count falls from 2 to 1 — it is not conserved. -/
theorem c2_counterexample :
    totalAssignments (handleCalendarDrop
        ⟨[], [((2024, 3, 15), [("100", "Acme")]), ((2024, 3, 16), [("100", "Acme")])],
          [], [], false⟩
        ⟨(2024, 3, 16), [("100", "Acme")], some "calendar", some (2024, 3, 15),
          [("100", "Acme")], [0]⟩).state.calendarAssignments = 1 ∧
    totalAssignments [((2024, 3, 15), [(("100" : String), ("Acme" : String))]),
      ((2024, 3, 16), [("100", "Acme")])] = 2 := by
  decide

/-- C2 (amended): dropping order X from day A onto day B (A ≠ B, X held
exactly once by A, the captured index hint pointing at it, B holding at
most one copy) leaves X absent from A's list and present exactly once in
B's list.  The total number of assignments over all days is unchanged
when X was not already assigned to B; when it was, the duplicate-skip on
insert makes the total decrease by exactly the one copy removed from A. -/
theorem c2_cross_day_move (s : AppState) (p : DropPayload)
    (A B : DateKey) (X : Order) (i : Nat) (lA : List Order)
    (hpt : p.dateKey = B) (hpo : p.orders = [X]) (hps : p.sourceDateKey = some A)
    (hpso : p.sourceOrders = [X]) (hpsi : p.sourceIndices = [(i : Int)])
    (hAB : A ≠ B)
    (hnd : (s.calendarAssignments.map Prod.fst).Nodup)
    (hA : dlookup A s.calendarAssignments = some lA)
    (hXi : lA.get? i = some X)
    (hcount : lA.count X = 1)
    (hBcount : ((dlookup B s.calendarAssignments).getD []).count X ≤ 1) :
    ((dlookup A (handleCalendarDrop s p).state.calendarAssignments).getD []).count X = 0 ∧
    ((dlookup B (handleCalendarDrop s p).state.calendarAssignments).getD []).count X = 1 ∧
    (X ∉ (dlookup B s.calendarAssignments).getD [] →
      totalAssignments (handleCalendarDrop s p).state.calendarAssignments =
        totalAssignments s.calendarAssignments) ∧
    (X ∈ (dlookup B s.calendarAssignments).getD [] →
      totalAssignments (handleCalendarDrop s p).state.calendarAssignments + 1 =
        totalAssignments s.calendarAssignments) := by
  have hBA : B ≠ A := Ne.symm hAB
  have hApt : A ≠ p.dateKey := by rw [hpt]; exact hAB
  have hi_lt : i < lA.length := by
    by_contra hlt
    rw [List.get?_eq_none.mpr (Nat.le_of_not_lt hlt)] at hXi
    exact Option.noConfusion hXi
  have hlA_ne : lA ≠ [] := by
    intro h
    rw [h] at hXi
    simp at hXi
  have hord : ¬p.orders.isEmpty = true := by rw [hpo]; simp
  have hstate : (handleCalendarDrop s p).state.calendarAssignments =
      (dropCore s.calendarAssignments p).1 := handleCalendarDrop_assign_eq s p hord
  have hm1A : dlookup A (dropM1 s.calendarAssignments p) = some lA := by
    rw [dlookup_dropM1_ne hApt]
    exact hA
  have hm1B : dlookup B (dropM1 s.calendarAssignments p) =
      some ((dlookup B s.calendarAssignments).getD []) := by
    have h2 := dlookup_dropM1_self s.calendarAssignments p
    rwa [hpt] at h2
  have hta0 : dropTA0 s.calendarAssignments p = (dlookup B s.calendarAssignments).getD [] := by
    rw [dropTA0, dlookup_dropM1_self, hpt]
    rfl
  have hsrc : dropSourceList s.calendarAssignments p = some lA := by
    rw [dropSourceList, hps]
    show (if A = p.dateKey then some (dropTA0 s.calendarAssignments p)
      else dlookup A (dropM1 s.calendarAssignments p)) = some lA
    rw [if_neg hApt]
    exact hm1A
  have hget : lA[i]? = some X := by rw [← List.get?_eq_getElem?]; exact hXi
  have hfind : findRemovalIndex lA [] (some (i : Int)) X = some i := by
    rw [findRemovalIndex]
    simp [hi_lt, hget]
  have hrem : dropRemoved s.calendarAssignments p = [i] := by
    rw [dropRemoved, hsrc]
    show dropRemovedIndices lA
      (if p.sourceOrders.isEmpty then p.orders else p.sourceOrders) p.sourceIndices = [i]
    rw [hpso, hpsi]
    rw [if_neg (by simp)]
    rw [dropRemovedIndices, if_neg (by simpa [List.isEmpty_iff] using hlA_ne)]
    simp only [List.enum, List.enumFrom, List.map_cons, List.map_nil, List.get?]
    rw [removalLoop, hfind]
    rfl
  have hnew : dropNewSourceList s.calendarAssignments p = lA.eraseIdx i := by
    rw [dropNewSourceList, hsrc, hrem]
    simp [popIndicesDesc, sortNatDesc, insertSortedDescNat, hi_lt]
  have hm2 : dropM2 s.calendarAssignments p =
      (if lA.eraseIdx i = [] then derase A (dropM1 s.calendarAssignments p)
       else dinsert A (lA.eraseIdx i) (dropM1 s.calendarAssignments p)) := by
    rw [dropM2, hrem, hps, hnew]
    rw [if_neg (by simp)]
    show (if A = p.dateKey then
        dinsert p.dateKey (lA.eraseIdx i) (dropM1 s.calendarAssignments p)
      else if (lA.eraseIdx i).isEmpty then derase A (dropM1 s.calendarAssignments p)
      else dinsert A (lA.eraseIdx i) (dropM1 s.calendarAssignments p)) = _
    rw [if_neg hApt]
    by_cases he : lA.eraseIdx i = []
    · rw [if_pos (by simpa [List.isEmpty_iff] using he), if_pos he]
    · rw [if_neg (by simpa [List.isEmpty_iff] using he), if_neg he]
  have hta1 : dropTA1 s.calendarAssignments p = (dlookup B s.calendarAssignments).getD [] := by
    rw [dropTA1, hps, hpt]
    rw [if_neg (by simpa using hAB)]
    exact hta0
  have happ : appendOrdersLoop (dropTA1 s.calendarAssignments p) p.orders =
      (if X ∈ (dlookup B s.calendarAssignments).getD []
       then ((dlookup B s.calendarAssignments).getD [], false)
       else ((dlookup B s.calendarAssignments).getD [] ++ [X], true)) := by
    rw [hta1, hpo]
    by_cases hmem : X ∈ (dlookup B s.calendarAssignments).getD []
    · simp [appendOrdersLoop, hmem]
    · simp [appendOrdersLoop, hmem]
  have hcore1 : (dropCore s.calendarAssignments p).1 =
      dinsert B (appendOrdersLoop (dropTA1 s.calendarAssignments p) p.orders).1
        (dropM2 s.calendarAssignments p) := by
    rw [dropCore, ← hpt]
  have hm1nd := dropM1_keys_nodup (p := p) hnd
  have htm1 : totalAssignments (dropM1 s.calendarAssignments p) =
      totalAssignments s.calendarAssignments := by
    rw [dropM1, dropSetdefault]
    rcases h2 : dlookup p.dateKey s.calendarAssignments with _ | v
    · exact totalAssignments_append_empty ..
    · rfl
  have htm2 : totalAssignments (dropM2 s.calendarAssignments p) + 1 =
      totalAssignments (dropM1 s.calendarAssignments p) := by
    rw [hm2]
    have hlen := List.length_eraseIdx_add_one hi_lt
    by_cases he : lA.eraseIdx i = []
    · rw [if_pos he]
      have hd := totalAssignments_derase hm1A
      rw [he] at hlen
      simp at hlen
      omega
    · rw [if_neg he]
      have hd := totalAssignments_dinsert hm1A (lA.eraseIdx i)
      omega
  have hlkB2 : dlookup B (dropM2 s.calendarAssignments p) =
      some ((dlookup B s.calendarAssignments).getD []) := by
    rw [hm2]
    by_cases he : lA.eraseIdx i = []
    · rw [if_pos he, dlookup_derase_ne hAB]
      exact hm1B
    · rw [if_neg he, dlookup_dinsert_ne hAB]
      exact hm1B
  rw [hstate, hcore1]
  refine ⟨?_, ?_, ?_, ?_⟩
  · rw [dlookup_dinsert_ne hBA, hm2]
    by_cases he : lA.eraseIdx i = []
    · rw [if_pos he, dlookup_derase_self A _ hm1nd]
      simp
    · rw [if_neg he, dlookup_dinsert_self]
      have h2 := count_eraseIdx_at lA i hXi
      simp only [Option.getD_some]
      omega
  · rw [dlookup_dinsert_self, happ]
    by_cases hmem : X ∈ (dlookup B s.calendarAssignments).getD []
    · rw [if_pos hmem]
      have h1 := List.count_pos_iff.mpr hmem
      simp only [Option.getD_some]
      omega
    · rw [if_neg hmem]
      simp only [Option.getD_some, List.count_append]
      rw [List.count_eq_zero.mpr hmem]
      simp
  · intro hmem
    have happl : (appendOrdersLoop (dropTA1 s.calendarAssignments p) p.orders).1 =
        (dlookup B s.calendarAssignments).getD [] ++ [X] := by
      rw [happ, if_neg hmem]
    rw [happl]
    have hd := totalAssignments_dinsert hlkB2
      ((dlookup B s.calendarAssignments).getD [] ++ [X])
    simp only [List.length_append, List.length_cons, List.length_nil] at hd
    omega
  · intro hmem
    have happl : (appendOrdersLoop (dropTA1 s.calendarAssignments p) p.orders).1 =
        (dlookup B s.calendarAssignments).getD [] := by
      rw [happ, if_pos hmem]
    rw [happl]
    have hd := totalAssignments_dinsert hlkB2 ((dlookup B s.calendarAssignments).getD [])
    omega

/-- C2 witness: the scenario from the spec — `("100", "Acme")` moved
from March 15 to an empty March 16. -/
theorem c2_witness :
    (((2024, 3, 15) : DateKey) ≠ (2024, 3, 16) ∧
      dlookup (2024, 3, 15) [((2024, 3, 15), [(("100" : String), ("Acme" : String))])] =
        some [("100", "Acme")] ∧
      ([(("100" : String), ("Acme" : String))].get? 0 = some ("100", "Acme")) ∧
      [(("100" : String), ("Acme" : String))].count ("100", "Acme") = 1) ∧
    ((dlookup (2024, 3, 15) (handleCalendarDrop
        ⟨[], [((2024, 3, 15), [("100", "Acme")])], [], [], false⟩
        ⟨(2024, 3, 16), [("100", "Acme")], some "calendar", some (2024, 3, 15),
          [("100", "Acme")], [(0 : Int)]⟩).state.calendarAssignments).getD []).count
      ("100", "Acme") = 0 ∧
    ((dlookup (2024, 3, 16) (handleCalendarDrop
        ⟨[], [((2024, 3, 15), [("100", "Acme")])], [], [], false⟩
        ⟨(2024, 3, 16), [("100", "Acme")], some "calendar", some (2024, 3, 15),
          [("100", "Acme")], [(0 : Int)]⟩).state.calendarAssignments).getD []).count
      ("100", "Acme") = 1 ∧
    totalAssignments (handleCalendarDrop
        ⟨[], [((2024, 3, 15), [("100", "Acme")])], [], [], false⟩
        ⟨(2024, 3, 16), [("100", "Acme")], some "calendar", some (2024, 3, 15),
          [("100", "Acme")], [(0 : Int)]⟩).state.calendarAssignments =
      totalAssignments [((2024, 3, 15), [(("100" : String), ("Acme" : String))])] := by
  have h := c2_cross_day_move
    ⟨[], [((2024, 3, 15), [("100", "Acme")])], [], [], false⟩
    ⟨(2024, 3, 16), [("100", "Acme")], some "calendar", some (2024, 3, 15),
      [("100", "Acme")], [(0 : Int)]⟩
    (2024, 3, 15) (2024, 3, 16) ("100", "Acme") 0 [("100", "Acme")]
    rfl rfl rfl rfl rfl (by decide) (by decide) (by decide) (by decide) (by decide) (by decide)
  exact ⟨⟨by decide, by decide, by decide, by decide⟩, h.1, h.2.1,
    h.2.2.1 (by decide)⟩

/-! ### Undo/redo machinery lemmas -/

theorem mem_keys_dinsert {α : Type} {q k : DateKey} {v : α} {m : List (DateKey × α)}
    (h : q ∈ (dinsert k v m).map Prod.fst) : q = k ∨ q ∈ m.map Prod.fst := by
  simp only [List.mem_map] at h
  obtain ⟨e, he, rfl⟩ := h
  rcases mem_dinsert he with h1 | h1
  · exact Or.inl (by simp [h1])
  · exact Or.inr (List.mem_map_of_mem _ h1)

theorem keys_nodup_dinsert {α : Type} {k : DateKey} {v : α} :
    ∀ {m : List (DateKey × α)}, (m.map Prod.fst).Nodup →
    ((dinsert k v m).map Prod.fst).Nodup := by
  intro m
  induction m with
  | nil => intro _; simp [dinsert]
  | cons hd tl ih =>
    obtain ⟨k2, v2⟩ := hd
    intro h
    simp only [List.map_cons, List.nodup_cons] at h
    by_cases hk : k2 = k
    · subst hk
      simp only [dinsert, eq_self_iff_true, if_true, List.map_cons, List.nodup_cons]
      exact ⟨h.1, h.2⟩
    · simp only [dinsert, if_neg hk, List.map_cons, List.nodup_cons]
      refine ⟨?_, ih h.2⟩
      intro hmem
      rcases mem_keys_dinsert hmem with h1 | h1
      · exact hk h1
      · exact h.1 h1

theorem derase_sublist {α : Type} (k : DateKey) :
    ∀ (m : List (DateKey × α)), List.Sublist (derase k m) m := by
  intro m
  induction m with
  | nil => simp [derase]
  | cons hd tl ih =>
    obtain ⟨k2, v2⟩ := hd
    by_cases hk : k2 = k
    · simpa [derase, hk] using List.sublist_cons_self (k2, v2) tl
    · simpa [derase, hk] using List.Sublist.cons₂ (k2, v2) ih

theorem keys_nodup_derase {α : Type} {k : DateKey} {m : List (DateKey × α)}
    (h : (m.map Prod.fst).Nodup) : ((derase k m).map Prod.fst).Nodup :=
  ((derase_sublist k m).map Prod.fst).nodup h

theorem keys_nodup_restoreAssignmentsKey {k : DateKey} {prev : Option (List Order)}
    {m : List (DateKey × List Order)} (h : (m.map Prod.fst).Nodup) :
    ((restoreAssignmentsKey m k prev).map Prod.fst).Nodup := by
  rw [restoreAssignmentsKey]
  split
  · exact keys_nodup_derase h
  · exact keys_nodup_dinsert h

theorem keys_nodup_restoreNotesKey {k : DateKey} {hk : Bool} {prev : Option String}
    {m : List (DateKey × String)} (h : (m.map Prod.fst).Nodup) :
    ((restoreNotesKey m k hk prev).map Prod.fst).Nodup := by
  cases prev
  · exact keys_nodup_derase h
  · exact keys_nodup_dinsert h

theorem dlookup_restoreAssignmentsKey_ne {q k : DateKey} (hne : q ≠ k)
    (m : List (DateKey × List Order)) (prev : Option (List Order)) :
    dlookup q (restoreAssignmentsKey m k prev) = dlookup q m := by
  rw [restoreAssignmentsKey]
  split
  · exact dlookup_derase_ne (Ne.symm hne) m
  · exact dlookup_dinsert_ne (Ne.symm hne) _ m

theorem dlookup_restoreNotesKey_ne {q k : DateKey} (hne : q ≠ k)
    (m : List (DateKey × String)) (hk : Bool) (prev : Option String) :
    dlookup q (restoreNotesKey m k hk prev) = dlookup q m := by
  cases prev
  · exact dlookup_derase_ne (Ne.symm hne) m
  · exact dlookup_dinsert_ne (Ne.symm hne) _ m

/-- Restoring the captured snapshot of `m0` at `k` onto any well-formed
map recovers exactly `m0`'s value at `k` (the hypothesis rules out the
unreachable `k ↦ []` capture). -/
theorem restore_capture_assign (m0 m : List (DateKey × List Order)) (k : DateKey)
    (hnd : (m.map Prod.fst).Nodup) (hinv0 : ∀ l, dlookup k m0 = some l → l ≠ []) :
    dlookup k (restoreAssignmentsKey m k (captureAssignmentsState m0 k).previous) =
      dlookup k m0 := by
  rcases h0 : dlookup k m0 with _ | l
  · simp [captureAssignmentsState, h0, restoreAssignmentsKey, dlookup_derase_self k m hnd]
  · have hl := hinv0 l h0
    simp [captureAssignmentsState, h0, restoreAssignmentsKey, List.isEmpty_iff, hl,
      dlookup_dinsert_self]

theorem restore_capture_notes (m0 m : List (DateKey × String)) (k : DateKey)
    (hnd : (m.map Prod.fst).Nodup) :
    dlookup k (restoreNotesKey m k (captureNotesState m0 k).1 (captureNotesState m0 k).2) =
      dlookup k m0 := by
  rcases h0 : dlookup k m0 with _ | v <;>
    simp [captureNotesState, h0, restoreNotesKey, dlookup_dinsert_self,
      dlookup_derase_self k m hnd]

theorem trimStack_append_getLast (st : List HistoryAction) (a : HistoryAction) :
    (trimStack UNDO_STACK_LIMIT (st ++ [a])).getLast? = some a := by
  rw [trimStack]
  split
  · next hc =>
    rw [List.drop_append_of_le_length (by
      simp only [UNDO_STACK_LIMIT, List.length_append, List.length_cons,
        List.length_nil] at hc ⊢
      omega)]
    exact List.getLast?_concat ..
  · exact List.getLast?_concat ..

theorem normalizeHistoryAction_notes (k : DateKey) (hk : Bool) (prev : Option String) :
    normalizeHistoryAction (.notes k hk prev) = some (.notes k hk prev) := rfl

theorem normalizeHistoryAction_assignments_ne {entries : List (DateKey × AssignSnapshot)}
    (h : entries ≠ []) :
    normalizeHistoryAction (.assignments entries) = some (.assignments entries) := by
  cases entries with
  | nil => exact absurd rfl h
  | cons e rest => rfl

theorem undoLastAction_notes_eq (s2 : AppState) (k : DateKey) (hk : Bool)
    (prev : Option String)
    (hlast : s2.undoStack.getLast? = some (.notes k hk prev)) :
    undoLastAction s2 =
      { pushRedoAction { s2 with undoStack := s2.undoStack.dropLast }
          (.notes k (captureNotesState s2.calendarNotes k).1
            (captureNotesState s2.calendarNotes k).2) with
        calendarNotes := restoreNotesKey
          (pushRedoAction { s2 with undoStack := s2.undoStack.dropLast }
            (.notes k (captureNotesState s2.calendarNotes k).1
              (captureNotesState s2.calendarNotes k).2)).calendarNotes k hk prev,
        saveScheduled := true } := by
  rw [undoLastAction, hlast]

theorem undoLastAction_assignments_eq (s2 : AppState)
    (dates : List (DateKey × AssignSnapshot)) (e : DateKey × AssignSnapshot)
    (rest : List (DateKey × AssignSnapshot)) (hdates : dates = e :: rest)
    (hlast : s2.undoStack.getLast? = some (.assignments dates)) :
    undoLastAction s2 =
      { pushRedoAction
          { s2 with
            undoStack := s2.undoStack.dropLast,
            calendarAssignments :=
              (captureRestoreAssignLoop dates s2.calendarAssignments).2 }
          (.assignments (captureRestoreAssignLoop dates s2.calendarAssignments).1) with
        saveScheduled := true } := by
  subst hdates
  rw [undoLastAction, hlast]
  simp [captureRestoreAssignLoop]

theorem redoLastAction_notes_eq (s2 : AppState) (k : DateKey) (hk : Bool)
    (prev : Option String)
    (hlast : s2.redoStack.getLast? = some (.notes k hk prev)) :
    redoLastAction s2 =
      { pushUndoAction { s2 with redoStack := s2.redoStack.dropLast }
          (.notes k (captureNotesState s2.calendarNotes k).1
            (captureNotesState s2.calendarNotes k).2) false with
        calendarNotes := restoreNotesKey
          (pushUndoAction { s2 with redoStack := s2.redoStack.dropLast }
            (.notes k (captureNotesState s2.calendarNotes k).1
              (captureNotesState s2.calendarNotes k).2) false).calendarNotes k hk prev,
        saveScheduled := true } := by
  rw [redoLastAction, hlast]

theorem redoLastAction_assignments_eq (s2 : AppState)
    (dates : List (DateKey × AssignSnapshot)) (e : DateKey × AssignSnapshot)
    (rest : List (DateKey × AssignSnapshot)) (hdates : dates = e :: rest)
    (hlast : s2.redoStack.getLast? = some (.assignments dates)) :
    redoLastAction s2 =
      { pushUndoAction
          { s2 with
            redoStack := s2.redoStack.dropLast,
            calendarAssignments :=
              (captureRestoreAssignLoop dates s2.calendarAssignments).2 }
          (.assignments (captureRestoreAssignLoop dates s2.calendarAssignments).1) false with
        saveScheduled := true } := by
  subst hdates
  rw [redoLastAction, hlast]
  simp [captureRestoreAssignLoop]

/-- Undo/redo inverse law for a pushed notes action over an arbitrary
single-key notes mutation. -/
theorem undoRedo_notes (s : AppState) (k : DateKey) (newNotes : List (DateKey × String))
    (hnewnd : (newNotes.map Prod.fst).Nodup)
    (hndn : (s.calendarNotes.map Prod.fst).Nodup)
    (hfoot : ∀ q, q ≠ k → dlookup q newNotes = dlookup q s.calendarNotes)
    (s2 : AppState)
    (hs2 : s2 = { s with
      calendarNotes := newNotes,
      undoStack := trimStack UNDO_STACK_LIMIT (s.undoStack ++
        [.notes k (captureNotesState s.calendarNotes k).1
          (captureNotesState s.calendarNotes k).2]),
      redoStack := [], saveScheduled := true }) :
    storeEq (undoLastAction s2) s ∧
    storeEq (redoLastAction (undoLastAction s2)) s2 := by
  subst hs2
  have hlast : ({ s with
      calendarNotes := newNotes,
      undoStack := trimStack UNDO_STACK_LIMIT (s.undoStack ++
        [.notes k (captureNotesState s.calendarNotes k).1
          (captureNotesState s.calendarNotes k).2]),
      redoStack := [], saveScheduled := true } : AppState).undoStack.getLast? =
      some (.notes k (captureNotesState s.calendarNotes k).1
        (captureNotesState s.calendarNotes k).2) :=
    trimStack_append_getLast s.undoStack _
  rw [undoLastAction_notes_eq _ k _ _ hlast]
  simp only [pushRedoAction_notes]
  have hredoStack : ∀ (s3 : AppState) (a : HistoryAction) (ha2 : normalizeHistoryAction a = some a),
      s3.redoStack = [] → (pushRedoAction s3 a).redoStack = [a] := by
    intro s3 a ha2 h0
    rw [pushRedoAction, ha2]
    simp [h0, trimStack, UNDO_STACK_LIMIT]
  constructor
  · constructor
    · intro q
      show dlookup q (restoreNotesKey newNotes k
        (captureNotesState s.calendarNotes k).1
        (captureNotesState s.calendarNotes k).2) = dlookup q s.calendarNotes
      by_cases hq : q = k
      · subst hq
        exact restore_capture_notes s.calendarNotes newNotes q hnewnd
      · rw [dlookup_restoreNotesKey_ne hq, hfoot q hq]
    · intro q
      rfl
  · have hlast2 : ({ pushRedoAction
        { s with
          calendarNotes := newNotes,
          undoStack := (trimStack UNDO_STACK_LIMIT (s.undoStack ++
            [.notes k (captureNotesState s.calendarNotes k).1
              (captureNotesState s.calendarNotes k).2])).dropLast,
          redoStack := [], saveScheduled := true }
        (.notes k (captureNotesState newNotes k).1 (captureNotesState newNotes k).2) with
        calendarNotes := restoreNotesKey newNotes k
          (captureNotesState s.calendarNotes k).1
          (captureNotesState s.calendarNotes k).2,
        saveScheduled := true } : AppState).redoStack.getLast? =
      some (.notes k (captureNotesState newNotes k).1 (captureNotesState newNotes k).2) := by
      show (pushRedoAction _ _).redoStack.getLast? = _
      rw [hredoStack _ _ (normalizeHistoryAction_notes ..) rfl]
      rfl
    rw [redoLastAction_notes_eq _ k _ _ hlast2]
    simp only [pushUndoAction_notes]
    constructor
    · intro q
      show dlookup q (restoreNotesKey
        (restoreNotesKey newNotes k (captureNotesState s.calendarNotes k).1
          (captureNotesState s.calendarNotes k).2) k
        (captureNotesState newNotes k).1 (captureNotesState newNotes k).2) =
        dlookup q newNotes
      by_cases hq : q = k
      · subst hq
        exact restore_capture_notes newNotes _ q (keys_nodup_restoreNotesKey hnewnd)
      · rw [dlookup_restoreNotesKey_ne hq, dlookup_restoreNotesKey_ne hq]
    · intro q
      rfl

/-! ### Drop footprint lemmas for the undo/redo law -/

theorem dropTA0_eq (m : List (DateKey × List Order)) (p : DropPayload) :
    dropTA0 m p = (dlookup p.dateKey m).getD [] := by
  rw [dropTA0, dlookup_dropM1_self]
  rfl

theorem dropRemoved_none (m : List (DateKey × List Order)) (p : DropPayload)
    (h : p.sourceDateKey = none) : dropRemoved m p = [] := by
  have h2 : dropSourceList m p = none := by rw [dropSourceList, h]
  rw [dropRemoved, h2]

theorem dropM2_of_not_removed (m : List (DateKey × List Order)) (p : DropPayload)
    (h : (dropCore m p).2.2 = false) : dropM2 m p = dropM1 m p := by
  have h2 : (dropRemoved m p).isEmpty = true := by
    have h3 : (!(dropRemoved m p).isEmpty) = false := h
    simpa using h3
  rw [dropM2, if_pos h2]

theorem dlookup_dropM2_other (m : List (DateKey × List Order)) (p : DropPayload)
    (q : DateKey) (hqk : q ≠ p.dateKey)
    (hqs : ∀ src, p.sourceDateKey = some src → q ≠ src) :
    dlookup q (dropM2 m p) = dlookup q m := by
  rw [dropM2]
  split
  · exact dlookup_dropM1_ne hqk
  · split
    next src hsrc =>
      have hqsrc : q ≠ src := hqs src hsrc
      split
      · rw [dlookup_dinsert_ne (Ne.symm hqk)]
        exact dlookup_dropM1_ne hqk
      · split
        · rw [dlookup_derase_ne (Ne.symm hqsrc)]
          exact dlookup_dropM1_ne hqk
        · rw [dlookup_dinsert_ne (Ne.symm hqsrc)]
          exact dlookup_dropM1_ne hqk
    next => exact dlookup_dropM1_ne hqk

/-- A key that is neither the drop target nor the drop source keeps its
assignment list across the drop. -/
theorem dropCore_lookup_other (m : List (DateKey × List Order)) (p : DropPayload)
    (q : DateKey) (hqk : q ≠ p.dateKey)
    (hqs : ∀ src, p.sourceDateKey = some src → q ≠ src) :
    dlookup q (dropCore m p).1 = dlookup q m := by
  show dlookup q (dinsert p.dateKey
    (appendOrdersLoop (dropTA1 m p) p.orders).1 (dropM2 m p)) = dlookup q m
  rw [dlookup_dinsert_ne (Ne.symm hqk)]
  exact dlookup_dropM2_other m p q hqk hqs

/-- When the removal scan found nothing, every key other than the target
is untouched (the source day included). -/
theorem dropCore_lookup_other_notRemoved (m : List (DateKey × List Order)) (p : DropPayload)
    (q : DateKey) (hqk : q ≠ p.dateKey)
    (hrem : (dropCore m p).2.2 = false) :
    dlookup q (dropCore m p).1 = dlookup q m := by
  show dlookup q (dinsert p.dateKey
    (appendOrdersLoop (dropTA1 m p) p.orders).1 (dropM2 m p)) = dlookup q m
  rw [dlookup_dinsert_ne (Ne.symm hqk), dropM2_of_not_removed m p hrem]
  exact dlookup_dropM1_ne hqk

/-- A cross-day drop that appended nothing re-inserts the target's own
list, so the target key's lookup is unchanged (the payload's orders being
non-empty rules out the transient empty `setdefault` list surviving). -/
theorem dropCore_lookup_target_notAdded (m : List (DateKey × List Order)) (p : DropPayload)
    (hord : p.orders ≠ [])
    (hsrc : p.sourceDateKey ≠ some p.dateKey)
    (hadd : (dropCore m p).2.1 = false) :
    dlookup p.dateKey (dropCore m p).1 = dlookup p.dateKey m := by
  have hadd2 : (appendOrdersLoop (dropTA1 m p) p.orders).2 = false := hadd
  have hta1 : dropTA1 m p = dropTA0 m p := by rw [dropTA1, if_neg hsrc]
  have happ : (appendOrdersLoop (dropTA1 m p) p.orders).1 = dropTA1 m p :=
    appendOrdersLoop_not_added _ _ hadd2
  show dlookup p.dateKey (dinsert p.dateKey
    (appendOrdersLoop (dropTA1 m p) p.orders).1 (dropM2 m p)) = dlookup p.dateKey m
  rw [dlookup_dinsert_self, happ, hta1, dropTA0_eq]
  rcases hl : dlookup p.dateKey m with _ | v
  · exfalso
    rcases horders : p.orders with _ | ⟨o, rest⟩
    · exact hord horders
    rw [hta1, dropTA0_eq, hl, horders] at hadd2
    simp [appendOrdersLoop] at hadd2
  · rfl

theorem dropM2_keys_nodup {m : List (DateKey × List Order)} {p : DropPayload}
    (hnd : (m.map Prod.fst).Nodup) : ((dropM2 m p).map Prod.fst).Nodup := by
  have h1 := dropM1_keys_nodup (p := p) hnd
  rw [dropM2]
  split
  · exact h1
  · split
    · split
      · exact keys_nodup_dinsert h1
      · split
        · exact keys_nodup_derase h1
        · exact keys_nodup_dinsert h1
    · exact h1

theorem dropCore_keys_nodup {m : List (DateKey × List Order)} {p : DropPayload}
    (hnd : (m.map Prod.fst).Nodup) : ((dropCore m p).1.map Prod.fst).Nodup :=
  keys_nodup_dinsert (dropM2_keys_nodup hnd)

theorem captureRestoreAssignLoop_single (k : DateKey) (info : AssignSnapshot)
    (m : List (DateKey × List Order)) :
    captureRestoreAssignLoop [(k, info)] m =
      ([(k, captureAssignmentsState m k)], restoreAssignmentsKey m k info.previous) := rfl

theorem captureRestoreAssignLoop_pair (kT kS : DateKey) (iT iS : AssignSnapshot)
    (m : List (DateKey × List Order)) :
    captureRestoreAssignLoop [(kT, iT), (kS, iS)] m =
      ([(kT, captureAssignmentsState m kT),
        (kS, captureAssignmentsState (restoreAssignmentsKey m kT iT.previous) kS)],
       restoreAssignmentsKey (restoreAssignmentsKey m kT iT.previous) kS iS.previous) := rfl

/-- Undo/redo inverse law for a mutation that pushed a single-key
assignments action capturing the pre-mutation state. -/
theorem undoRedo_single_assign (s : AppState) (k : DateKey)
    (newAssign : List (DateKey × List Order))
    (hnewnd : (newAssign.map Prod.fst).Nodup)
    (hnda : (s.calendarAssignments.map Prod.fst).Nodup)
    (hinv : ∀ l, dlookup k s.calendarAssignments = some l → l ≠ [])
    (hinvNew : ∀ l, dlookup k newAssign = some l → l ≠ [])
    (hfoot : ∀ q, q ≠ k → dlookup q newAssign = dlookup q s.calendarAssignments)
    (s2 : AppState)
    (hs2 : s2 = { s with
      calendarAssignments := newAssign,
      undoStack := trimStack UNDO_STACK_LIMIT (s.undoStack ++
        [.assignments [(k, captureAssignmentsState s.calendarAssignments k)]]),
      redoStack := [], saveScheduled := true }) :
    storeEq (undoLastAction s2) s ∧
    storeEq (redoLastAction (undoLastAction s2)) s2 := by
  subst hs2
  have hlast : ({ s with
      calendarAssignments := newAssign,
      undoStack := trimStack UNDO_STACK_LIMIT (s.undoStack ++
        [.assignments [(k, captureAssignmentsState s.calendarAssignments k)]]),
      redoStack := [], saveScheduled := true } : AppState).undoStack.getLast? =
      some (.assignments [(k, captureAssignmentsState s.calendarAssignments k)]) :=
    trimStack_append_getLast s.undoStack _
  rw [undoLastAction_assignments_eq _
    [(k, captureAssignmentsState s.calendarAssignments k)]
    (k, captureAssignmentsState s.calendarAssignments k) [] rfl hlast]
  simp only [captureRestoreAssignLoop_single]
  constructor
  · constructor
    · intro q
      rfl
    · intro q
      show dlookup q (restoreAssignmentsKey newAssign k
        (captureAssignmentsState s.calendarAssignments k).previous) =
        dlookup q s.calendarAssignments
      by_cases hq : q = k
      · subst hq
        exact restore_capture_assign s.calendarAssignments newAssign q hnewnd hinv
      · rw [dlookup_restoreAssignmentsKey_ne hq, hfoot q hq]
  · rw [redoLastAction_assignments_eq _
      [(k, captureAssignmentsState newAssign k)]
      (k, captureAssignmentsState newAssign k) [] rfl (by rfl)]
    simp only [captureRestoreAssignLoop_single]
    constructor
    · intro q
      rfl
    · intro q
      show dlookup q (restoreAssignmentsKey
        (restoreAssignmentsKey newAssign k
          (captureAssignmentsState s.calendarAssignments k).previous) k
        (captureAssignmentsState newAssign k).previous) = dlookup q newAssign
      by_cases hq : q = k
      · subst hq
        exact restore_capture_assign newAssign _ q
          (keys_nodup_restoreAssignmentsKey hnewnd) hinvNew
      · rw [dlookup_restoreAssignmentsKey_ne hq, dlookup_restoreAssignmentsKey_ne hq]

/-- Undo/redo inverse law for a mutation that pushed a two-key
assignments action (drop target first, cross-day source second), both
snapshots capturing the pre-mutation state. -/
theorem undoRedo_double_assign (s : AppState) (kT kS : DateKey) (hks : kT ≠ kS)
    (newAssign : List (DateKey × List Order))
    (hnewnd : (newAssign.map Prod.fst).Nodup)
    (hnda : (s.calendarAssignments.map Prod.fst).Nodup)
    (hinvT : ∀ l, dlookup kT s.calendarAssignments = some l → l ≠ [])
    (hinvS : ∀ l, dlookup kS s.calendarAssignments = some l → l ≠ [])
    (hinvNewT : ∀ l, dlookup kT newAssign = some l → l ≠ [])
    (hinvNewS : ∀ l, dlookup kS newAssign = some l → l ≠ [])
    (hfoot : ∀ q, q ≠ kT → q ≠ kS → dlookup q newAssign = dlookup q s.calendarAssignments)
    (s2 : AppState)
    (hs2 : s2 = { s with
      calendarAssignments := newAssign,
      undoStack := trimStack UNDO_STACK_LIMIT (s.undoStack ++
        [.assignments [(kT, captureAssignmentsState s.calendarAssignments kT),
          (kS, captureAssignmentsState s.calendarAssignments kS)]]),
      redoStack := [], saveScheduled := true }) :
    storeEq (undoLastAction s2) s ∧
    storeEq (redoLastAction (undoLastAction s2)) s2 := by
  subst hs2
  have hndM1 : ((restoreAssignmentsKey newAssign kT
      (captureAssignmentsState s.calendarAssignments kT).previous).map Prod.fst).Nodup :=
    keys_nodup_restoreAssignmentsKey hnewnd
  have hlkM1S : dlookup kS (restoreAssignmentsKey newAssign kT
      (captureAssignmentsState s.calendarAssignments kT).previous) = dlookup kS newAssign :=
    dlookup_restoreAssignmentsKey_ne (Ne.symm hks) _ _
  have hlast : ({ s with
      calendarAssignments := newAssign,
      undoStack := trimStack UNDO_STACK_LIMIT (s.undoStack ++
        [.assignments [(kT, captureAssignmentsState s.calendarAssignments kT),
          (kS, captureAssignmentsState s.calendarAssignments kS)]]),
      redoStack := [], saveScheduled := true } : AppState).undoStack.getLast? =
      some (.assignments [(kT, captureAssignmentsState s.calendarAssignments kT),
        (kS, captureAssignmentsState s.calendarAssignments kS)]) :=
    trimStack_append_getLast s.undoStack _
  rw [undoLastAction_assignments_eq _
    [(kT, captureAssignmentsState s.calendarAssignments kT),
      (kS, captureAssignmentsState s.calendarAssignments kS)]
    (kT, captureAssignmentsState s.calendarAssignments kT)
    [(kS, captureAssignmentsState s.calendarAssignments kS)] rfl hlast]
  simp only [captureRestoreAssignLoop_pair]
  constructor
  · constructor
    · intro q
      rfl
    · intro q
      show dlookup q (restoreAssignmentsKey (restoreAssignmentsKey newAssign kT
        (captureAssignmentsState s.calendarAssignments kT).previous) kS
        (captureAssignmentsState s.calendarAssignments kS).previous) =
        dlookup q s.calendarAssignments
      by_cases hqS : q = kS
      · subst hqS
        exact restore_capture_assign s.calendarAssignments _ q hndM1 hinvS
      · rw [dlookup_restoreAssignmentsKey_ne hqS]
        by_cases hqT : q = kT
        · subst hqT
          exact restore_capture_assign s.calendarAssignments newAssign q hnewnd hinvT
        · rw [dlookup_restoreAssignmentsKey_ne hqT]
          exact hfoot q hqT hqS
  · rw [redoLastAction_assignments_eq _
      [(kT, captureAssignmentsState newAssign kT),
        (kS, captureAssignmentsState (restoreAssignmentsKey newAssign kT
          (captureAssignmentsState s.calendarAssignments kT).previous) kS)]
      (kT, captureAssignmentsState newAssign kT)
      [(kS, captureAssignmentsState (restoreAssignmentsKey newAssign kT
        (captureAssignmentsState s.calendarAssignments kT).previous) kS)] rfl (by rfl)]
    simp only [captureRestoreAssignLoop_pair]
    constructor
    · intro q
      rfl
    · intro q
      show dlookup q (restoreAssignmentsKey (restoreAssignmentsKey
        (restoreAssignmentsKey (restoreAssignmentsKey newAssign kT
          (captureAssignmentsState s.calendarAssignments kT).previous) kS
          (captureAssignmentsState s.calendarAssignments kS).previous) kT
        (captureAssignmentsState newAssign kT).previous) kS
        (captureAssignmentsState (restoreAssignmentsKey newAssign kT
          (captureAssignmentsState s.calendarAssignments kT).previous) kS).previous) =
        dlookup q newAssign
      by_cases hqS : q = kS
      · subst hqS
        rw [restore_capture_assign _ _ q
          (keys_nodup_restoreAssignmentsKey (keys_nodup_restoreAssignmentsKey hndM1))
          (fun l hl => hinvNewS l (hlkM1S ▸ hl))]
        exact hlkM1S
      · rw [dlookup_restoreAssignmentsKey_ne hqS]
        by_cases hqT : q = kT
        · subst hqT
          exact restore_capture_assign newAssign _ q
            (keys_nodup_restoreAssignmentsKey hndM1) hinvNewT
        · rw [dlookup_restoreAssignmentsKey_ne hqT,
            dlookup_restoreAssignmentsKey_ne hqS, dlookup_restoreAssignmentsKey_ne hqT]

/-! ### Explicit forms of the mutating paths -/

theorem saveDayNotes_push (s : AppState) (k : DateKey) (t : String)
    (hpush : mutationPushes s (.saveNotes k t) = true) :
    saveDayNotes s k t = { s with
      calendarNotes := (if (!(pyStrip t).isEmpty) = true then dinsert k t s.calendarNotes
        else derase k s.calendarNotes),
      undoStack := trimStack UNDO_STACK_LIMIT (s.undoStack ++
        [.notes k (captureNotesState s.calendarNotes k).1
          (captureNotesState s.calendarNotes k).2]),
      redoStack := [], saveScheduled := true } := by
  simp only [mutationPushes, Bool.and_eq_true, Bool.not_eq_true',
    Bool.and_eq_false_iff, Bool.not_eq_false] at hpush
  have h1 : ¬((!(pyStrip t).isEmpty) = true ∧ dlookup k s.calendarNotes = some t) := by
    rintro ⟨ha, hb⟩
    rcases hpush.1 with h | h
    · rw [ha] at h
      exact Bool.noConfusion h
    · rw [hb] at h
      simp at h
  have h2 : ¬(¬((!(pyStrip t).isEmpty) = true) ∧ dlookup k s.calendarNotes = none) := by
    rintro ⟨ha, hb⟩
    rcases hpush.2 with h | h
    · rw [Bool.not_not] at h
      exact ha (by rw [h]; rfl)
    · rw [hb] at h
      simp at h
  simp only [saveDayNotes]
  rw [if_neg h1, if_neg h2]
  rfl

theorem deleteDayOrders_push (s : AppState) (k : DateKey) (sel : List Int)
    (hpush : mutationPushes s (.deleteOrders k sel) = true) :
    deleteDayOrders s k sel = { s with
      calendarAssignments :=
        (if ((validDeleteIndices ((dlookup k s.calendarAssignments).getD []) sel).reverse.foldl
              (fun acc idx => acc.eraseIdx idx)
              ((dlookup k s.calendarAssignments).getD [])).isEmpty = true
         then derase k s.calendarAssignments
         else dinsert k
           ((validDeleteIndices ((dlookup k s.calendarAssignments).getD []) sel).reverse.foldl
             (fun acc idx => acc.eraseIdx idx) ((dlookup k s.calendarAssignments).getD []))
           s.calendarAssignments),
      undoStack := trimStack UNDO_STACK_LIMIT (s.undoStack ++
        [.assignments [(k, captureAssignmentsState s.calendarAssignments k)]]),
      redoStack := [], saveScheduled := true } := by
  simp only [mutationPushes, Bool.and_eq_true, Bool.not_eq_true'] at hpush
  simp only [deleteDayOrders]
  rw [if_neg (by simp [hpush.1.1]), if_neg (by simp [hpush.1.2]), if_neg (by simp [hpush.2])]
  rfl

theorem assignOrderToDay_push (s : AppState) (k : DateKey) (ov : List String)
    (hpush : mutationPushes s (.assign k ov) = true) :
    (assignOrderToDay s k ov true).1 = { s with
      calendarAssignments := dinsert k
        (((dlookup k s.calendarAssignments).getD []) ++ [normalizeAssignment ov])
        s.calendarAssignments,
      undoStack := trimStack UNDO_STACK_LIMIT (s.undoStack ++
        [.assignments [(k, captureAssignmentsState s.calendarAssignments k)]]),
      redoStack := [], saveScheduled := true } := by
  have hmem : normalizeAssignment ov ∉ (dlookup k s.calendarAssignments).getD [] := by
    simpa [mutationPushes] using hpush
  simp only [assignOrderToDay]
  rw [if_neg hmem]
  rfl

theorem handleCalendarDrop_push (s : AppState) (p : DropPayload)
    (hord : ¬p.orders.isEmpty = true)
    (hpush : ((dropCore s.calendarAssignments p).2.1 ||
      (dropCore s.calendarAssignments p).2.2) = true)
    (hne : dropUndoEntries (captureAssignmentsState s.calendarAssignments p.dateKey)
      (p.sourceDateKey.map (captureAssignmentsState s.calendarAssignments))
      p.dateKey p.sourceDateKey
      (dropCore s.calendarAssignments p).2.1 (dropCore s.calendarAssignments p).2.2 ≠ []) :
    (handleCalendarDrop s p).state = { s with
      calendarAssignments := (dropCore s.calendarAssignments p).1,
      undoStack := trimStack UNDO_STACK_LIMIT (s.undoStack ++
        [.assignments (dropUndoEntries
          (captureAssignmentsState s.calendarAssignments p.dateKey)
          (p.sourceDateKey.map (captureAssignmentsState s.calendarAssignments))
          p.dateKey p.sourceDateKey
          (dropCore s.calendarAssignments p).2.1
          (dropCore s.calendarAssignments p).2.2)]),
      redoStack := [], saveScheduled := true } := by
  have hne2 : (dropUndoEntries (captureAssignmentsState s.calendarAssignments p.dateKey)
      (p.sourceDateKey.map (captureAssignmentsState s.calendarAssignments))
      p.dateKey p.sourceDateKey
      (dropCore s.calendarAssignments p).2.1
      (dropCore s.calendarAssignments p).2.2).isEmpty = false := by
    rw [List.isEmpty_eq_false]
    exact hne
  simp only [handleCalendarDrop, if_neg hord, hne2, Bool.false_eq_true, if_false, hpush,
    if_true, pushUndoAction, normalizeHistoryAction_assignments_ne hne]

/-- C1: for every store state whose dict invariants hold (distinct day
keys in both maps, no empty assignment list — maintained by every
operation) and every notes/assignment mutation that takes its mutating
path (a guard-rejected call is a declared no-op and pushes nothing),
`undo()` immediately after the mutation restores both Store maps to
dict-equality with the pre-mutation state, and `redo()` immediately
after that `undo()` restores the post-mutation maps. -/
theorem c1_undo_redo_inverse (s : AppState) (mu : Mutation)
    (hndn : (s.calendarNotes.map Prod.fst).Nodup)
    (hnda : (s.calendarAssignments.map Prod.fst).Nodup)
    (hinv : assignInvariant s.calendarAssignments = true)
    (hpush : mutationPushes s mu = true) :
    storeEq (undoLastAction (applyMutation s mu)) s ∧
    storeEq (redoLastAction (undoLastAction (applyMutation s mu))) (applyMutation s mu) := by
  cases mu with
  | saveNotes k t =>
    rw [applyMutation, saveDayNotes_push s k t hpush]
    by_cases hnew : (!(pyStrip t).isEmpty) = true
    · rw [if_pos hnew]
      exact undoRedo_notes s k _ (keys_nodup_dinsert hndn) hndn
        (fun q hq => dlookup_dinsert_ne (Ne.symm hq) _ _) _ rfl
    · rw [if_neg hnew]
      exact undoRedo_notes s k _ (keys_nodup_derase hndn) hndn
        (fun q hq => dlookup_derase_ne (Ne.symm hq) _) _ rfl
  | deleteOrders k sel =>
    rw [applyMutation, deleteDayOrders_push s k sel hpush]
    by_cases hemp : ((validDeleteIndices ((dlookup k s.calendarAssignments).getD []) sel).reverse.foldl
        (fun acc idx => acc.eraseIdx idx) ((dlookup k s.calendarAssignments).getD [])).isEmpty = true
    · rw [if_pos hemp]
      exact undoRedo_single_assign s k _ (keys_nodup_derase hnda) hnda
        (fun l hl => assignInvariant_lookup hinv hl)
        (fun l hl => by
          rw [dlookup_derase_self k s.calendarAssignments hnda] at hl
          exact Option.noConfusion hl)
        (fun q hq => dlookup_derase_ne (Ne.symm hq) _) _ rfl
    · rw [if_neg hemp]
      exact undoRedo_single_assign s k _ (keys_nodup_dinsert hnda) hnda
        (fun l hl => assignInvariant_lookup hinv hl)
        (fun l hl he => by
          rw [dlookup_dinsert_self] at hl
          apply hemp
          rw [Option.some.inj hl, he]
          rfl)
        (fun q hq => dlookup_dinsert_ne (Ne.symm hq) _ _) _ rfl
  | assign k ov =>
    rw [applyMutation, assignOrderToDay_push s k ov hpush]
    exact undoRedo_single_assign s k _ (keys_nodup_dinsert hnda) hnda
      (fun l hl => assignInvariant_lookup hinv hl)
      (fun l hl he => by
        rw [dlookup_dinsert_self] at hl
        have h2 := Option.some.inj hl
        rw [he] at h2
        simp at h2)
      (fun q hq => dlookup_dinsert_ne (Ne.symm hq) _ _) _ rfl
  | drop p =>
    have hord : ¬p.orders.isEmpty = true := by
      intro he
      have h2 : ((handleCalendarDrop s p).addedToTarget ||
          (handleCalendarDrop s p).removedFromSource) = true := hpush
      rw [handleCalendarDrop, if_pos he] at h2
      simp at h2
    have hordNe : p.orders ≠ [] := by simpa [List.isEmpty_iff] using hord
    have hflags := handleCalendarDrop_flags s p hord
    have hpushCore : ((dropCore s.calendarAssignments p).2.1 ||
        (dropCore s.calendarAssignments p).2.2) = true := by
      have h2 : ((handleCalendarDrop s p).addedToTarget ||
          (handleCalendarDrop s p).removedFromSource) = true := hpush
      rw [hflags.1, hflags.2] at h2
      exact h2
    have hinvT : ∀ l, dlookup p.dateKey s.calendarAssignments = some l → l ≠ [] :=
      fun l hl => assignInvariant_lookup hinv hl
    have hinvNewAll : ∀ q l, dlookup q (dropCore s.calendarAssignments p).1 = some l → l ≠ [] :=
      dropCore_noEmpty s.calendarAssignments p hinv hordNe
    rw [applyMutation]
    rcases hps : p.sourceDateKey with _ | src
    · have hremF : (dropCore s.calendarAssignments p).2.2 = false := by
        show (!(dropRemoved s.calendarAssignments p).isEmpty) = false
        rw [dropRemoved_none s.calendarAssignments p hps]
        rfl
      have haddT : (dropCore s.calendarAssignments p).2.1 = true := by
        rcases h : (dropCore s.calendarAssignments p).2.1 with _ | _
        · rw [h, hremF] at hpushCore
          exact Bool.noConfusion hpushCore
        · rfl
      have hent : dropUndoEntries (captureAssignmentsState s.calendarAssignments p.dateKey)
          (p.sourceDateKey.map (captureAssignmentsState s.calendarAssignments))
          p.dateKey p.sourceDateKey
          (dropCore s.calendarAssignments p).2.1 (dropCore s.calendarAssignments p).2.2 =
          [(p.dateKey, captureAssignmentsState s.calendarAssignments p.dateKey)] := by
        rw [hps, haddT, hremF]
        rfl
      rw [handleCalendarDrop_push s p hord hpushCore (by rw [hent]; simp), hent]
      exact undoRedo_single_assign s p.dateKey _ (dropCore_keys_nodup hnda) hnda hinvT
        (fun l hl => hinvNewAll p.dateKey l hl)
        (fun q hq => dropCore_lookup_other s.calendarAssignments p q hq
          (fun src2 hsrc2 => by rw [hps] at hsrc2; exact Option.noConfusion hsrc2)) _ rfl
    · by_cases hks : src = p.dateKey
      · have hent : dropUndoEntries (captureAssignmentsState s.calendarAssignments p.dateKey)
            (p.sourceDateKey.map (captureAssignmentsState s.calendarAssignments))
            p.dateKey p.sourceDateKey
            (dropCore s.calendarAssignments p).2.1 (dropCore s.calendarAssignments p).2.2 =
            [(p.dateKey, captureAssignmentsState s.calendarAssignments p.dateKey)] := by
          subst hks
          rcases hadd : (dropCore s.calendarAssignments p).2.1 with _ | _ <;>
            rcases hrem : (dropCore s.calendarAssignments p).2.2 with _ | _ <;>
            simp_all [dropUndoEntries, hps]
        rw [handleCalendarDrop_push s p hord hpushCore (by rw [hent]; simp), hent]
        exact undoRedo_single_assign s p.dateKey _ (dropCore_keys_nodup hnda) hnda hinvT
          (fun l hl => hinvNewAll p.dateKey l hl)
          (fun q hq => dropCore_lookup_other s.calendarAssignments p q hq
            (fun src2 hsrc2 => by
              rw [hps] at hsrc2
              obtain rfl := Option.some.inj hsrc2
              rw [hks]
              exact hq)) _ rfl
      · by_cases hremT : (dropCore s.calendarAssignments p).2.2 = true
        · by_cases haddT : (dropCore s.calendarAssignments p).2.1 = true
          · have hent : dropUndoEntries (captureAssignmentsState s.calendarAssignments p.dateKey)
                (p.sourceDateKey.map (captureAssignmentsState s.calendarAssignments))
                p.dateKey p.sourceDateKey
                (dropCore s.calendarAssignments p).2.1 (dropCore s.calendarAssignments p).2.2 =
                [(p.dateKey, captureAssignmentsState s.calendarAssignments p.dateKey),
                  (src, captureAssignmentsState s.calendarAssignments src)] := by
              rw [hps, haddT, hremT]
              simp [dropUndoEntries, hks]
            rw [handleCalendarDrop_push s p hord hpushCore (by rw [hent]; simp), hent]
            exact undoRedo_double_assign s p.dateKey src (fun he => hks he.symm) _
              (dropCore_keys_nodup hnda) hnda hinvT
              (fun l hl => assignInvariant_lookup hinv hl)
              (fun l hl => hinvNewAll p.dateKey l hl)
              (fun l hl => hinvNewAll src l hl)
              (fun q hqT hqS => dropCore_lookup_other s.calendarAssignments p q hqT
                (fun src2 hsrc2 => by
                  rw [hps] at hsrc2
                  obtain rfl := Option.some.inj hsrc2
                  exact hqS)) _ rfl
          · have haddF : (dropCore s.calendarAssignments p).2.1 = false :=
              Bool.eq_false_iff.mpr haddT
            have hent : dropUndoEntries (captureAssignmentsState s.calendarAssignments p.dateKey)
                (p.sourceDateKey.map (captureAssignmentsState s.calendarAssignments))
                p.dateKey p.sourceDateKey
                (dropCore s.calendarAssignments p).2.1 (dropCore s.calendarAssignments p).2.2 =
                [(src, captureAssignmentsState s.calendarAssignments src)] := by
              rw [hps, haddF, hremT]
              simp [dropUndoEntries, hks]
            rw [handleCalendarDrop_push s p hord hpushCore (by rw [hent]; simp), hent]
            exact undoRedo_single_assign s src _ (dropCore_keys_nodup hnda) hnda
              (fun l hl => assignInvariant_lookup hinv hl)
              (fun l hl => hinvNewAll src l hl)
              (fun q hq => by
                by_cases hqk : q = p.dateKey
                · subst hqk
                  exact dropCore_lookup_target_notAdded s.calendarAssignments p hordNe
                    (by rw [hps]; intro he; exact hks (Option.some.inj he)) haddF
                · exact dropCore_lookup_other s.calendarAssignments p q hqk
                    (fun src2 hsrc2 => by
                      rw [hps] at hsrc2
                      obtain rfl := Option.some.inj hsrc2
                      exact hq)) _ rfl
        · have hremF : (dropCore s.calendarAssignments p).2.2 = false :=
            Bool.eq_false_iff.mpr hremT
          have haddT : (dropCore s.calendarAssignments p).2.1 = true := by
            rcases h : (dropCore s.calendarAssignments p).2.1 with _ | _
            · rw [h, hremF] at hpushCore
              exact Bool.noConfusion hpushCore
            · rfl
          have hent : dropUndoEntries (captureAssignmentsState s.calendarAssignments p.dateKey)
              (p.sourceDateKey.map (captureAssignmentsState s.calendarAssignments))
              p.dateKey p.sourceDateKey
              (dropCore s.calendarAssignments p).2.1 (dropCore s.calendarAssignments p).2.2 =
              [(p.dateKey, captureAssignmentsState s.calendarAssignments p.dateKey)] := by
            rw [hps, haddT, hremF]
            rfl
          rw [handleCalendarDrop_push s p hord hpushCore (by rw [hent]; simp), hent]
          exact undoRedo_single_assign s p.dateKey _ (dropCore_keys_nodup hnda) hnda hinvT
            (fun l hl => hinvNewAll p.dateKey l hl)
            (fun q hq => dropCore_lookup_other_notRemoved s.calendarAssignments p q hq hremF)
            _ rfl

theorem c1_witness :
    ((((⟨[], [], [], [], false⟩ : AppState)).calendarNotes.map Prod.fst).Nodup ∧
      (((⟨[], [], [], [], false⟩ : AppState)).calendarAssignments.map Prod.fst).Nodup ∧
      assignInvariant ((⟨[], [], [], [], false⟩ : AppState)).calendarAssignments = true ∧
      mutationPushes (⟨[], [], [], [], false⟩ : AppState)
        (.assign (2024, 3, 15) ["100", "Acme"]) = true) ∧
    (storeEq (undoLastAction (applyMutation (⟨[], [], [], [], false⟩ : AppState)
        (.assign (2024, 3, 15) ["100", "Acme"])))
      (⟨[], [], [], [], false⟩ : AppState) ∧
    storeEq (redoLastAction (undoLastAction (applyMutation
        (⟨[], [], [], [], false⟩ : AppState) (.assign (2024, 3, 15) ["100", "Acme"]))))
      (applyMutation (⟨[], [], [], [], false⟩ : AppState)
        (.assign (2024, 3, 15) ["100", "Acme"]))) :=
  ⟨⟨by decide, by decide, by decide, by decide⟩,
    c1_undo_redo_inverse (⟨[], [], [], [], false⟩ : AppState)
      (.assign (2024, 3, 15) ["100", "Acme"]) (by decide) (by decide) (by decide) (by decide)⟩

end YBS
